import Mathlib

/-!
Verification of the VectorVis causal-ordering engine.

This file is a shallow embedding, in Lean 4, of the algorithmic core of the
VectorVis repository: the vector-clock value type (VectorTimestamp), the
happened-before resolution and vertical-rank assignment of the model graph
builder (ModelGraph), the field-extraction step of the execution parser, and
the AbstractNode doubly-linked / multi-family graph primitive.

JavaScript objects used as string-keyed dictionaries are embedded as
association lists in insertion order; JS for..in iteration order is the list
order.  JS property assignment replaces in place or appends; JS delete removes
the entry.  Code paths that throw a TypeError (dereferencing undefined) or an
exception are embedded as Option-valued functions returning none.
-/

/-- Lookup in a JS-object-like association list: obj\x5bk\x5d, none = undefined. -/
def alistGet {κ α : Type} [DecidableEq κ] (m : List (κ × α)) (k : κ) : Option α :=
  (m.find? (fun p => decide (p.1 = k))).map (·.2)

/-- JS property assignment obj\x5bk\x5d = v: replace in place if the key is
present, else append. -/
def alistSet {κ α : Type} [DecidableEq κ] : List (κ × α) → κ → α → List (κ × α)
  | [], k, v => [(k, v)]
  | p :: rest, k, v => if p.1 = k then (k, v) :: rest else p :: alistSet rest k v

/-- JS delete obj\x5bk\x5d: remove the entry with the given key. -/
def alistErase {κ α : Type} [DecidableEq κ] : List (κ × α) → κ → List (κ × α)
  | [], _ => []
  | p :: rest, k => if p.1 = k then rest else p :: alistErase rest k

theorem alistGet_nil {κ α : Type} [DecidableEq κ] (k : κ) :
    alistGet ([] : List (κ × α)) k = none := rfl

theorem alistGet_cons {κ α : Type} [DecidableEq κ] (p : κ × α) (m : List (κ × α)) (k : κ) :
    alistGet (p :: m) k = if p.1 = k then some p.2 else alistGet m k := by
  simp only [alistGet, List.find?]
  by_cases h : p.1 = k <;> simp [h]

theorem alistSet_cons_pos {κ α : Type} [DecidableEq κ] (p : κ × α) (m : List (κ × α))
    (k : κ) (v : α) (h : p.1 = k) : alistSet (p :: m) k v = (k, v) :: m := by
  simp [alistSet, h]

theorem alistSet_cons_neg {κ α : Type} [DecidableEq κ] (p : κ × α) (m : List (κ × α))
    (k : κ) (v : α) (h : ¬p.1 = k) : alistSet (p :: m) k v = p :: alistSet m k v := by
  simp [alistSet, h]

theorem alistGet_set_self {κ α : Type} [DecidableEq κ] (m : List (κ × α)) (k : κ) (v : α) :
    alistGet (alistSet m k v) k = some v := by
  induction m with
  | nil => rw [show alistSet ([] : List (κ × α)) k v = [(k, v)] from rfl,
               alistGet_cons, if_pos rfl]
  | cons p rest ih =>
      by_cases h : p.1 = k
      · rw [alistSet_cons_pos p rest k v h, alistGet_cons, if_pos rfl]
      · rw [alistSet_cons_neg p rest k v h, alistGet_cons, if_neg h, ih]

theorem alistGet_set_other {κ α : Type} [DecidableEq κ] (m : List (κ × α)) (k k' : κ) (v : α)
    (hne : k' ≠ k) : alistGet (alistSet m k v) k' = alistGet m k' := by
  have hkk : ¬(k = k') := fun h => hne h.symm
  induction m with
  | nil =>
      rw [show alistSet ([] : List (κ × α)) k v = [(k, v)] from rfl,
          alistGet_cons, if_neg hkk, alistGet_nil]
  | cons p rest ih =>
      by_cases h : p.1 = k
      · have hpk : ¬(p.1 = k') := by rw [h]; exact hkk
        rw [alistSet_cons_pos p rest k v h, alistGet_cons, if_neg hkk,
            alistGet_cons, if_neg hpk]
      · rw [alistSet_cons_neg p rest k v h, alistGet_cons, alistGet_cons, ih]

/-- The vector clock is a mapping from host name to clock value. -/
abbrev Clock := List (String × Nat)

/-- The VectorTimestamp record: clock entries, owning host, cached own-clock
value.  Mirrors the fields set by the VectorTimestamp constructor. -/
structure VectorTimestamp where
  clock : Clock
  host : String
  ownTime : Nat
deriving DecidableEq, Repr

/-- The VectorTimestamp constructor.  It caches ownTime, throws when the
supplied clock has no entry for the owning host (none here), and deletes every
zero-valued entry from the stored clock. -/
def VectorTimestamp.make (clock : Clock) (host : String) : Option VectorTimestamp :=
  if (alistGet clock host).isSome then
    some { clock := clock.filter (fun p => !(p.2 == 0)),
           host := host,
           ownTime := (alistGet clock host).getD 0 }
  else
    none

/-- VectorTimestamp.prototype.increment: copy the clock, increment the entry
of the own host, construct a new VectorTimestamp.  When the stored clock has
no entry for the own host (possible when the supplied own value was zero and
was deleted by the constructor), the JS code increments undefined, which
poisons the entry with NaN; a Nat-valued clock cannot represent that value,
so this path is embedded as none (no valid timestamp results). -/
def VectorTimestamp.increment (a : VectorTimestamp) : Option VectorTimestamp :=
  match alistGet a.clock a.host with
  | some v => VectorTimestamp.make (alistSet a.clock a.host (v + 1)) a.host
  | none => none

theorem make_clock_eq (clock : Clock) (host : String) (a : VectorTimestamp)
    (h : VectorTimestamp.make clock host = some a) :
    a.clock = clock.filter (fun p => !(p.2 == 0)) ∧ a.host = host := by
  unfold VectorTimestamp.make at h
  by_cases hs : (alistGet clock host).isSome
  · simp only [hs, if_true, Option.some.injEq] at h
    subst h
    exact ⟨rfl, rfl⟩
  · simp [hs] at h

theorem mem_filter_ne_zero (m : Clock) (p : String × Nat)
    (h : p ∈ m.filter (fun q => !(q.2 == 0))) : p.2 ≠ 0 := by
  have := List.of_mem_filter h
  simpa using this

/-- Lookup in the zero-filtered clock, assuming unique keys: the entry is
present iff the original entry exists and is nonzero. -/
theorem alistGet_filter_ne_zero (m : Clock) (k : String)
    (hnd : (m.map Prod.fst).Nodup) :
    alistGet (m.filter (fun p => !(p.2 == 0))) k =
      match alistGet m k with
      | some v => if v = 0 then none else some v
      | none => none := by
  induction m with
  | nil => simp [alistGet_nil]
  | cons p rest ih =>
      simp only [List.map_cons, List.nodup_cons] at hnd
      obtain ⟨hk, hnd'⟩ := hnd
      by_cases hz : p.2 = 0
      · have hfc : (p :: rest).filter (fun q => !(q.2 == 0)) =
            rest.filter (fun q => !(q.2 == 0)) := by
          simp [List.filter_cons, hz]
        rw [hfc, alistGet_cons]
        by_cases hpk : p.1 = k
        · rw [if_pos hpk]
          have hrest : alistGet rest k = none := by
            cases hf : rest.find? (fun q => decide (q.1 = k)) with
            | none => simp [alistGet, hf]
            | some q =>
                exfalso
                apply hk
                have h1 := List.find?_some hf
                have h2 := List.mem_of_find?_eq_some hf
                simp only [decide_eq_true_eq] at h1
                rw [← hpk] at h1
                exact List.mem_map.mpr ⟨q, h2, h1⟩
          rw [ih hnd', hrest, hz]
          simp
        · rw [if_neg hpk, ih hnd']
      · have hfc : (p :: rest).filter (fun q => !(q.2 == 0)) =
            p :: rest.filter (fun q => !(q.2 == 0)) := by
          simp [List.filter_cons, hz]
        rw [hfc, alistGet_cons, alistGet_cons]
        by_cases hpk : p.1 = k
        · rw [if_pos hpk, if_pos hpk]
          simp [hz]
        · rw [if_neg hpk, if_neg hpk, ih hnd']

/-- Claim C6 (amended): constructing a VectorTimestamp from a clock that lacks
an entry for the declared owning host fails with a validation error, and
conversely succeeds when the entry is present; every successfully constructed
VectorTimestamp has no zero-valued clock entries; but the constructed clock
contains an entry for the owning host only when the supplied own value was
nonzero (a supplied zero own entry passes validation and is then dropped). -/
theorem vectorTimestamp_make_spec (clock : Clock) (host : String)
    (hnd : (clock.map Prod.fst).Nodup) :
    (VectorTimestamp.make clock host = none ↔ alistGet clock host = none)
  ∧ ∀ a, VectorTimestamp.make clock host = some a →
      (∀ p ∈ a.clock, p.2 ≠ 0)
    ∧ ((alistGet a.clock host).isSome ↔ ∃ v, alistGet clock host = some v ∧ v ≠ 0) := by
  refine ⟨⟨?_, ?_⟩, ?_⟩
  · intro h
    cases hg : alistGet clock host with
    | none => rfl
    | some v =>
        exfalso
        unfold VectorTimestamp.make at h
        simp [hg] at h
  · intro h
    unfold VectorTimestamp.make
    simp [h]
  · intro a ha
    obtain ⟨hc, _⟩ := make_clock_eq clock host a ha
    refine ⟨?_, ?_⟩
    · intro p hp
      rw [hc] at hp
      exact mem_filter_ne_zero clock p hp
    · rw [hc, alistGet_filter_ne_zero clock host hnd]
      cases hg : alistGet clock host with
      | none => simp
      | some v =>
          by_cases hz : v = 0 <;> simp [hz]

/-- Witness for C6 at a concrete input: clock a:1, b:0 with owning host a. -/
theorem vectorTimestamp_make_spec_witness :
    (VectorTimestamp.make [("a", 1), ("b", 0)] "a" = none ↔
      alistGet [("a", 1), ("b", 0)] "a" = none)
  ∧ ∀ a, VectorTimestamp.make [("a", 1), ("b", 0)] "a" = some a →
      (∀ p ∈ a.clock, p.2 ≠ 0)
    ∧ ((alistGet a.clock "a").isSome ↔
        ∃ v, alistGet [("a", 1), ("b", 0)] "a" = some v ∧ v ≠ 0) :=
  vectorTimestamp_make_spec [("a", 1), ("b", 0)] "a" (by decide)

/-- Counterexample to C6 as stated: a clock whose own-host entry is zero is
accepted by the constructor, yet the resulting clock has no entry for the
owning host. -/
theorem vectorTimestamp_make_zero_own_entry :
    VectorTimestamp.make [("a", 0)] "a" =
      some { clock := [], host := "a", ownTime := 0 }
  ∧ alistGet ([] : Clock) "a" = none := by
  constructor
  · rfl
  · rfl

theorem mem_alistSet {κ α : Type} [DecidableEq κ] (m : List (κ × α)) (k : κ) (v : α)
    (p : κ × α) (hp : p ∈ alistSet m k v) : p ∈ m ∨ p = (k, v) := by
  induction m with
  | nil =>
      right
      rw [show alistSet ([] : List (κ × α)) k v = [(k, v)] from rfl] at hp
      simpa using hp
  | cons q rest ih =>
      by_cases h : q.1 = k
      · rw [alistSet_cons_pos q rest k v h] at hp
        rcases List.mem_cons.mp hp with h1 | h1
        · right; exact h1
        · left; exact List.mem_cons_of_mem q h1
      · rw [alistSet_cons_neg q rest k v h] at hp
        rcases List.mem_cons.mp hp with h1 | h1
        · left; rw [h1]; exact List.mem_cons_self q rest
        · rcases ih h1 with h2 | h2
          · left; exact List.mem_cons_of_mem q h2
          · right; exact h2

theorem filter_ne_zero_eq_self (m : Clock) (hm : ∀ p ∈ m, p.2 ≠ 0) :
    m.filter (fun p => !(p.2 == 0)) = m := by
  apply List.filter_eq_self.mpr
  intro p hp
  simpa using hm p hp

/-- Claim C7 (amended): for every constructed VectorTimestamp whose stored
clock still has an entry for its own host (equivalently, whose supplied own
value was nonzero), increment returns a new timestamp whose clock equals the
original at every other host and carries own value plus one at the own host.
(The embedding is pure, so the original value is unchanged by construction.)
When the own entry was dropped as zero, the JS code corrupts the entry to NaN
instead, embedded as none — the subject of the counterexample below. -/
theorem vectorTimestamp_increment_spec (clock0 : Clock) (host0 : String)
    (a : VectorTimestamp) (v : Nat)
    (hmk : VectorTimestamp.make clock0 host0 = some a)
    (hv : alistGet a.clock a.host = some v) :
    a.increment = some { clock := alistSet a.clock a.host (v + 1),
                         host := a.host, ownTime := v + 1 }
  ∧ alistGet (alistSet a.clock a.host (v + 1)) a.host = some (v + 1)
  ∧ ∀ h, h ≠ a.host → alistGet (alistSet a.clock a.host (v + 1)) h = alistGet a.clock h := by
  obtain ⟨hc, _⟩ := make_clock_eq clock0 host0 a hmk
  have hnz : ∀ p ∈ alistSet a.clock a.host (v + 1), p.2 ≠ 0 := by
    intro p hp
    rcases mem_alistSet a.clock a.host (v + 1) p hp with h1 | h1
    · rw [hc] at h1
      exact mem_filter_ne_zero clock0 p h1
    · rw [h1]
      exact Nat.succ_ne_zero v
  have hget : alistGet (alistSet a.clock a.host (v + 1)) a.host = some (v + 1) :=
    alistGet_set_self a.clock a.host (v + 1)
  refine ⟨?_, hget, ?_⟩
  · have hstep : a.increment =
        VectorTimestamp.make (alistSet a.clock a.host (v + 1)) a.host := by
      unfold VectorTimestamp.increment
      rw [hv]
    rw [hstep]
    unfold VectorTimestamp.make
    rw [hget]
    simp only [Option.isSome_some, if_true, Option.getD_some]
    rw [filter_ne_zero_eq_self _ hnz]
  · intro h hne
    exact alistGet_set_other a.clock a.host h (v + 1) hne

/-- Witness for C7 at a concrete input: clock a:2, b:1 with owning host a. -/
theorem vectorTimestamp_increment_spec_witness :
    VectorTimestamp.increment { clock := [("a", 2), ("b", 1)], host := "a", ownTime := 2 } =
      some { clock := [("a", 3), ("b", 1)], host := "a", ownTime := 3 }
  ∧ alistGet (alistSet [("a", 2), ("b", 1)] "a" 3) "b" = alistGet [("a", 2), ("b", 1)] "b" :=
  ⟨(vectorTimestamp_increment_spec [("a", 2), ("b", 1)] "a"
      { clock := [("a", 2), ("b", 1)], host := "a", ownTime := 2 } 2
      (by decide) (by decide)).1,
   (vectorTimestamp_increment_spec [("a", 2), ("b", 1)] "a"
      { clock := [("a", 2), ("b", 1)], host := "a", ownTime := 2 } 2
      (by decide) (by decide)).2.2 "b" (by decide)⟩

/-- Counterexample to C7 as stated: the VectorTimestamp constructed from the
clock a:0 with owning host a is a valid constructed timestamp, but increment
on it does not produce a timestamp that differs only at the own host by one
(the JS code increments an undefined entry, yielding NaN). -/
theorem vectorTimestamp_increment_zero_own :
    VectorTimestamp.make [("a", 0)] "a" = some { clock := [], host := "a", ownTime := 0 }
  ∧ VectorTimestamp.increment { clock := [], host := "a", ownTime := 0 } = none :=
  ⟨rfl, rfl⟩

/-- A parsed log event as consumed by ModelGraph: identity, owning host
(derived from the timestamp by the LogEvent constructor) and vector
timestamp.  Raw text, line number and extracted fields are carried along in
the source but never read by the graph construction. -/
structure LogEvent where
  id : Nat
  host : String
  vectorTimestamp : VectorTimestamp
deriving DecidableEq, Repr

/-- VectorTimestamp.prototype.compareUpdatedHosts: the hosts, in clock
iteration order, whose entry is absent from or different in the other clock,
excluding the own host. -/
def VectorTimestamp.compareUpdatedHosts (a other : VectorTimestamp) : List String :=
  (a.clock.filter (fun p =>
    (alistGet other.clock p.1 != some p.2) && (a.host != p.1))).map Prod.fst

/-- VectorTimestamp.prototype.compareHosts: every host of the given list has
an entry in both clocks and the entries agree. -/
def VectorTimestamp.compareHosts (a other : VectorTimestamp)
    (updatedHosts : List String) : Bool :=
  updatedHosts.all (fun h =>
    match alistGet a.clock h, alistGet other.clock h with
    | some x, some y => x == y
    | _, _ => false)

/-- The per-host event map built by ModelGraph.initGraph (graph.events). -/
abbrev HostEvents := List (String × List LogEvent)

/-- ModelGraph.getEventByClockValue: scan the events of the given host in
order for the first event whose clock entry for that host equals the given
value.  When the host is absent from the events map the JS code dereferences
undefined (TypeError); both that crash and the no-match fall-through yield no
event here, and in either case the caller crashes on the missing result. -/
def getEventByClockValue (events : HostEvents) (host : String)
    (clockValue : Option Nat) : Option LogEvent :=
  match alistGet events host with
  | none => none
  | some evs => evs.find? (fun e => alistGet e.vectorTimestamp.clock host == clockValue)

/-- The lookup getHappenedBefore performs for one updated host. -/
def hbLookup (events : HostEvents) (curr : LogEvent) (h : String) : Option LogEvent :=
  getEventByClockValue events h (alistGet curr.vectorTimestamp.clock h)

inductive HBType
  | child
  | external
deriving DecidableEq, Repr

/-- The happened-before annotation attached to an event: an edge type and the
referenced event. -/
structure HB where
  type : HBType
  event : LogEvent
deriving DecidableEq, Repr

/-- The scanning loop of ModelGraph.getHappenedBefore over the updated hosts.
none embeds the JS TypeError raised when the loop body dereferences the
undefined result of a failed getEventByClockValue lookup. -/
def hbScan (events : HostEvents) (curr prev : LogEvent)
    (updatedHosts : List String) : List String → Option HB
  | [] => some ⟨HBType.child, prev⟩
  | h :: rest =>
      match hbLookup events curr h with
      | none => none
      | some x =>
          if curr.vectorTimestamp.compareHosts x.vectorTimestamp updatedHosts
          then some ⟨HBType.external, x⟩
          else hbScan events curr prev updatedHosts rest

/-- ModelGraph.getHappenedBefore: compare the current and previous event to
find the updated hosts, scan them for an external happened-before event, and
fall back to a child edge to the previous same-host event. -/
def getHappenedBefore (events : HostEvents) (curr prev : LogEvent) : Option HB :=
  hbScan events curr prev
    (curr.vectorTimestamp.compareUpdatedHosts prev.vectorTimestamp)
    (curr.vectorTimestamp.compareUpdatedHosts prev.vectorTimestamp)

/-- The happened-before rule as the specification words it: scanning the
updated hosts in order, the first host yielding a prior event with the
matching own-clock value that also agrees with the current clock on every
updated host gives an external edge to that event; otherwise the edge is a
child edge to the same-host predecessor. -/
def happenedBeforeSpec (events : HostEvents) (curr prev : LogEvent) : HB :=
  let updatedHosts := curr.vectorTimestamp.compareUpdatedHosts prev.vectorTimestamp
  match updatedHosts.findSome? (fun h =>
      match hbLookup events curr h with
      | some x =>
          if curr.vectorTimestamp.compareHosts x.vectorTimestamp updatedHosts
          then some x else none
      | none => none) with
  | some x => ⟨HBType.external, x⟩
  | none => ⟨HBType.child, prev⟩

theorem hbScan_eq_findSome (events : HostEvents) (curr prev : LogEvent)
    (updatedHosts : List String) (l : List String)
    (hl : ∀ h ∈ l, (hbLookup events curr h).isSome) :
    hbScan events curr prev updatedHosts l =
      some (match l.findSome? (fun h =>
          match hbLookup events curr h with
          | some x =>
              if curr.vectorTimestamp.compareHosts x.vectorTimestamp updatedHosts
              then some x else none
          | none => none) with
        | some x => ⟨HBType.external, x⟩
        | none => ⟨HBType.child, prev⟩) := by
  induction l with
  | nil => simp [hbScan, List.findSome?]
  | cons h rest ih =>
      have hh : (hbLookup events curr h).isSome := hl h (List.mem_cons_self h rest)
      cases hx : hbLookup events curr h with
      | none => rw [hx] at hh; simp at hh
      | some x =>
          by_cases hc : curr.vectorTimestamp.compareHosts x.vectorTimestamp updatedHosts
          · simp [hbScan, hx, hc, List.findSome?_cons]
          · have hrest : ∀ h' ∈ rest, (hbLookup events curr h').isSome := by
              intro h' hh'
              exact hl h' (List.mem_cons_of_mem h hh')
            simp only [hbScan, hx, hc, if_false, Bool.false_eq_true]
            rw [ih hrest]
            simp [List.findSome?_cons, hx, hc]

/-- Host A logs clock A:1 then A:2. -/
def exA1 : LogEvent := ⟨1, "A", ⟨[("A", 1)], "A", 1⟩⟩

def exA2 : LogEvent := ⟨2, "A", ⟨[("A", 2)], "A", 2⟩⟩

/-- Host B logs clock B:1 then B:2,A:2. -/
def exB1 : LogEvent := ⟨3, "B", ⟨[("B", 1)], "B", 1⟩⟩

def exB2 : LogEvent := ⟨4, "B", ⟨[("B", 2), ("A", 2)], "B", 2⟩⟩

/-- The per-host event map of the two-host example execution. -/
def exEvents : HostEvents := [("A", [exA1, exA2]), ("B", [exB1, exB2])]

/-- Claim C1 (amended): provided every scanned updated host has an event with
the matching clock value (a failed lookup instead crashes resolution, see the
counterexample), getHappenedBefore classifies the edge as external to the
first matching snapshot on an updated host and otherwise as child to the
same-host predecessor, exactly as the specification words it.  In the
two-host example where A logs A:1, A:2 and B logs B:1 then B:2,A:2, the
second event of B resolves to an external edge to the event of A with
own-time 2, and the second event of A resolves to a child edge to the first
event of A. -/
theorem happenedBefore_resolution (events : HostEvents) (curr prev : LogEvent)
    (hl : ∀ h ∈ curr.vectorTimestamp.compareUpdatedHosts prev.vectorTimestamp,
        (hbLookup events curr h).isSome) :
    getHappenedBefore events curr prev = some (happenedBeforeSpec events curr prev)
  ∧ getHappenedBefore exEvents exB2 exB1 = some ⟨HBType.external, exA2⟩
  ∧ getHappenedBefore exEvents exA2 exA1 = some ⟨HBType.child, exA1⟩ := by
  refine ⟨?_, by decide, by decide⟩
  unfold getHappenedBefore happenedBeforeSpec
  exact hbScan_eq_findSome events curr prev _ _ hl

/-- Witness for C1 at the two-host example input. -/
theorem happenedBefore_resolution_witness :
    getHappenedBefore exEvents exB2 exB1 = some (happenedBeforeSpec exEvents exB2 exB1)
  ∧ getHappenedBefore exEvents exB2 exB1 = some ⟨HBType.external, exA2⟩
  ∧ getHappenedBefore exEvents exA2 exA1 = some ⟨HBType.child, exA1⟩ :=
  happenedBefore_resolution exEvents exB2 exB1 (by decide)

/-- A truncated variant of the example: host A only logged A:1, so the event
with clock value A:2 that the second event of B refers to is missing. -/
def truncEvents : HostEvents := [("A", [exA1]), ("B", [exB1, exB2])]

/-- Counterexample to C1 as stated: in the truncated log no prior event on an
updated host matches, so the claim classifies the edge as child to the
predecessor; the code instead dereferences the undefined lookup result and
crashes (none), assigning no classification at all. -/
theorem happenedBefore_trunc_not_child :
    getHappenedBefore truncEvents exB2 exB1 = none
  ∧ getHappenedBefore truncEvents exB2 exB1 ≠ some ⟨HBType.child, exB1⟩ := by
  exact ⟨by decide, by decide⟩

/-- A scanned host is decisive for the getHappenedBefore loop when its lookup
either fails (the loop then crashes) or yields a matching snapshot (the loop
then returns an external edge). -/
def hbDecisive (events : HostEvents) (curr : LogEvent) (updatedHosts : List String)
    (h : String) : Bool :=
  match hbLookup events curr h with
  | none => true
  | some x => curr.vectorTimestamp.compareHosts x.vectorTimestamp updatedHosts

theorem hbScan_none_iff (events : HostEvents) (curr prev : LogEvent)
    (updatedHosts : List String) (l : List String) :
    hbScan events curr prev updatedHosts l = none ↔
      ∃ h, l.find? (hbDecisive events curr updatedHosts) = some h ∧
        hbLookup events curr h = none := by
  induction l with
  | nil => simp [hbScan, List.find?]
  | cons h rest ih =>
      cases hx : hbLookup events curr h with
      | none =>
          have hdec : hbDecisive events curr updatedHosts h = true := by
            unfold hbDecisive
            rw [hx]
          simp only [hbScan, hx, List.find?_cons, hdec]
          constructor
          · intro _
            exact ⟨h, rfl, hx⟩
          · intro _
            trivial
      | some x =>
          by_cases hc : curr.vectorTimestamp.compareHosts x.vectorTimestamp updatedHosts
          · have hdec : hbDecisive events curr updatedHosts h = true := by
              unfold hbDecisive
              rw [hx]
              exact hc
            simp only [hbScan, hx, hc, if_true, List.find?_cons, hdec]
            constructor
            · intro habs
              exact absurd habs (by simp)
            · intro ⟨h', hh', hl'⟩
              simp only [Option.some.injEq] at hh'
              rw [← hh'] at hl'
              rw [hx] at hl'
              exact absurd hl' (by simp)
          · have hdec : hbDecisive events curr updatedHosts h = false := by
              unfold hbDecisive
              rw [hx]
              exact eq_false_of_ne_true (fun hh => hc hh)
            simp only [hbScan, hx, hc, if_false, Bool.false_eq_true, List.find?_cons, hdec]
            exact ih

/-- Claim C4 (amended): getHappenedBefore aborts with a TypeError, embedded
as none, exactly when scanning the updated hosts in order reaches a host
whose getEventByClockValue lookup finds no event before any matching snapshot
is found — the code dereferences the missing lookup result, so the failure
surfaces as a thrown error rather than being masked into a child default. -/
theorem getHappenedBefore_crash_iff (events : HostEvents) (curr prev : LogEvent) :
    getHappenedBefore events curr prev = none ↔
      ∃ h, (curr.vectorTimestamp.compareUpdatedHosts prev.vectorTimestamp).find?
            (hbDecisive events curr
              (curr.vectorTimestamp.compareUpdatedHosts prev.vectorTimestamp)) = some h
        ∧ hbLookup events curr h = none := by
  unfold getHappenedBefore
  exact hbScan_none_iff events curr prev _ _

/-- Host C logged own-time 3 only; host D logs D:1 then D:2,C:1, referring to
a missing event with own-time 1 on C. -/
def ceC1 : LogEvent := ⟨11, "C", ⟨[("C", 3)], "C", 3⟩⟩

def ceD1 : LogEvent := ⟨12, "D", ⟨[("D", 1)], "D", 1⟩⟩

def ceD2 : LogEvent := ⟨13, "D", ⟨[("D", 2), ("C", 1)], "D", 2⟩⟩

def ceEvents : HostEvents := [("C", [ceC1]), ("D", [ceD1, ceD2])]

/-- Counterexample to C4 as stated: the lookup on the purportedly-external
host C finds no event with clock value 1, and getHappenedBefore reads a field
of that absent result — the resolution aborts (none) instead of producing any
happened-before record. -/
theorem getHappenedBefore_missing_lookup :
    hbLookup ceEvents ceD2 "C" = none
  ∧ getHappenedBefore ceEvents ceD2 ceD1 = none := by
  exact ⟨by decide, by decide⟩

/-- The artificial start event ModelGraph.initGraph synthesizes for the first
event of a host whose clock has more than one entry: same host, clock with a
single zero entry for that host.  The raw JS object carries only a host and a
clock; the remaining fields, never read by resolution, are filled with zero
and the host. -/
def genesisPrev (host : String) : LogEvent := ⟨0, host, ⟨[(host, 0)], host, 0⟩⟩

/-- An annotated event: the event with its happenedBefore record (absent for
origin events). -/
abbrev AnnEvent := LogEvent × Option HB

/-- The happened-before pass of initGraph over the events of one host after
the first: each event is resolved against its immediate in-order predecessor.
none propagates a crash of getHappenedBefore. -/
def annotateRest (events : HostEvents) (prev : LogEvent) :
    List LogEvent → Option (List AnnEvent)
  | [] => some []
  | e :: rest =>
      match getHappenedBefore events e prev with
      | none => none
      | some hb =>
          match annotateRest events e rest with
          | none => none
          | some tail => some ((e, some hb) :: tail)

/-- The happened-before pass of initGraph over the events of one host: the
first event gets a link only when its clock has more than one entry, resolved
against the synthesized genesis event; later events are resolved against
their predecessor. -/
def annotateHost (events : HostEvents) : List LogEvent → Option (List AnnEvent)
  | [] => some []
  | e :: rest =>
      if e.vectorTimestamp.clock.length > 1 then
        match getHappenedBefore events e (genesisPrev e.host) with
        | none => none
        | some hb =>
            match annotateRest events e rest with
            | none => none
            | some tail => some ((e, some hb) :: tail)
      else
        match annotateRest events e rest with
        | none => none
        | some tail => some ((e, none) :: tail)

/-- The per-host annotated event map. -/
abbrev AnnHostEvents := List (String × List AnnEvent)

def annotateAll (events : HostEvents) :
    List (String × List LogEvent) → Option AnnHostEvents
  | [] => some []
  | (h, evs) :: rest =>
      match annotateHost events evs with
      | none => none
      | some ann =>
          match annotateAll events rest with
          | none => none
          | some tail => some ((h, ann) :: tail)

/-- One entry of the hostIterator object: running rank and cursor index. -/
structure HostIter where
  pos : Nat
  index : Nat
deriving DecidableEq, Repr

/-- The mutable state of the rank pass: the hostIterator map and the pos
annotations written onto the events, keyed by event id. -/
structure RankState where
  iter : List (String × HostIter)
  posMap : List (Nat × Nat)
deriving DecidableEq, Repr

def iterGet (st : RankState) (host : String) : HostIter :=
  (alistGet st.iter host).getD ⟨0, 0⟩

def posGet (st : RankState) (eid : Nat) : Option Nat := alistGet st.posMap eid

/-- Write a rank: update the running rank and cursor of the host and attach
pos to the event. -/
def assignPos (st : RankState) (host : String) (eid : Nat)
    (newPos newIndex : Nat) : RankState :=
  ⟨alistSet st.iter host ⟨newPos, newIndex⟩, alistSet st.posMap eid newPos⟩

/-- The for loop of computeVerticalNodePositionsPerHost over the remaining
events of the host: skip already-ranked events; child or absent links get the
next host-local rank; external links first ensure the referenced host is
processed (through cv, the recursive entry point at the next fuel level),
then take the maximum of the host-local successor rank and the referenced
rank plus one.  none embeds a rank read of a still-unranked event (NaN
arithmetic in JS) or a failure of cv. -/
def rankLoopGo (cv : RankState → String → Option RankState) (host : String) :
    List AnnEvent → RankState → Option RankState
  | [], st => some st
  | (e, hb) :: rest, st =>
      if (posGet st e.id).isSome then rankLoopGo cv host rest st
      else
        match hb with
        | none =>
            rankLoopGo cv host rest
              (assignPos st host e.id ((iterGet st host).pos + 1) ((iterGet st host).index + 1))
        | some hbr =>
            match hbr.type with
            | HBType.child =>
                rankLoopGo cv host rest
                  (assignPos st host e.id ((iterGet st host).pos + 1) ((iterGet st host).index + 1))
            | HBType.external =>
                match posGet st hbr.event.id with
                | some px =>
                    rankLoopGo cv host rest
                      (assignPos st host e.id (max ((iterGet st host).pos + 1) (px + 1))
                        ((iterGet st host).index + 1))
                | none =>
                    match cv st hbr.event.host with
                    | none => none
                    | some st1 =>
                        if (posGet st1 e.id).isSome then rankLoopGo cv host rest st1
                        else
                          match posGet st1 hbr.event.id with
                          | none => none
                          | some px =>
                              rankLoopGo cv host rest
                                (assignPos st1 host e.id
                                  (max ((iterGet st1 host).pos + 1) (px + 1))
                                  ((iterGet st1 host).index + 1))

/-- ModelGraph.computeVerticalNodePositionsPerHost: walk the events of the
given host from the current cursor onward, assigning ranks.  The fuel bounds
the depth of the cross-host recursion (the JS code recurses unboundedly and
can overflow the stack on mutually-referring clocks); none embeds running out
of fuel or a NaN rank read. -/
def computeVertical (m : AnnHostEvents) : Nat → RankState → String → Option RankState
  | 0 => fun _ _ => none
  | fuel + 1 => fun st host =>
      rankLoopGo (computeVertical m fuel) host
        (((alistGet m host).getD []).drop (iterGet st host).index) st

/-- A node as handed to the rendering layer: the event with its derived
happenedBefore and pos annotations. -/
structure DisplayEvent where
  event : LogEvent
  happenedBefore : Option HB
  pos : Option Nat
deriving DecidableEq, Repr

/-- The edge predicate of initGraph and getFilteredEdges: the happenedBefore
record exists and has external type. -/
def isExternalNode (d : DisplayEvent) : Bool :=
  match d.happenedBefore with
  | some hb => hb.type == HBType.external
  | none => false

/-- The built model graph: host list, flattened annotated node list, and the
external-edge list. -/
structure ModelGraph where
  hosts : List String
  displayData : List DisplayEvent
  edges : List DisplayEvent
deriving DecidableEq, Repr

/-- d3.map(data, d => d.host).keys(): the distinct values in first-seen
order (a key already seen is skipped). -/
def dedupFirstGo (seen : List String) : List String → List String
  | [] => []
  | h :: t => if seen.contains h then dedupFirstGo seen t else h :: dedupFirstGo (h :: seen) t

def dedupFirst (l : List String) : List String := dedupFirstGo [] l

def graphHosts (data : List LogEvent) : List String := dedupFirst (data.map (·.host))

/-- The per-host event map of initGraph: for every host in first-seen order,
the events of that host in input order. -/
def graphEvents (data : List LogEvent) : HostEvents :=
  (graphHosts data).map (fun h => (h, data.filter (fun d => d.host == h)))

/-- displayData: the annotated events flattened host by host, each carrying
its pos annotation from the rank state. -/
def graphDisplay (ann : AnnHostEvents) (st : RankState) : List DisplayEvent :=
  (ann.map (fun p => p.2.map (fun q => DisplayEvent.mk q.1 q.2 (posGet st q.1.id)))).flatten

/-- ModelGraph.initGraph: group the events by host, resolve happened-before
links, run the rank pass starting from the first host only, flatten into
displayData and filter the external edges.  none embeds a JS crash: a
happened-before resolution error, an empty input (the first host is
undefined), fuel exhaustion, or NaN rank arithmetic.  The timestamp-field
conversion at the top of initGraph touches only d.fields, which the graph
construction never reads, and is not modelled. -/
def mkModelGraph (data : List LogEvent) : Option ModelGraph :=
  match annotateAll (graphEvents data) (graphEvents data) with
  | none => none
  | some ann =>
      match graphHosts data with
      | [] => none
      | h0 :: _ =>
          match computeVertical ann (data.length + 1)
              ⟨(graphHosts data).map (fun h => (h, ⟨0, 0⟩)), []⟩ h0 with
          | none => none
          | some st =>
              some ⟨graphHosts data, graphDisplay ann st,
                    (graphDisplay ann st).filter isExternalNode⟩

def ModelGraph.getNodes (g : ModelGraph) : List DisplayEvent := g.displayData

def ModelGraph.getEdges (g : ModelGraph) : List DisplayEvent := g.edges

/-- ModelGraph.getFilteredEdges: keep the given nodes whose happenedBefore is
present with external type. -/
def getFilteredEdges (nodes : List DisplayEvent) : List DisplayEvent :=
  nodes.filter isExternalNode

theorem mkModelGraph_edges (data : List LogEvent) (g : ModelGraph)
    (h : mkModelGraph data = some g) :
    g.edges = g.displayData.filter isExternalNode := by
  unfold mkModelGraph at h
  split at h
  · exact absurd h (by simp)
  · split at h
    · exact absurd h (by simp)
    · split at h
      · exact absurd h (by simp)
      · injection h with h'
        rw [← h']

/-- The two-host example execution in input order. -/
def exData : List LogEvent := [exA1, exA2, exB1, exB2]

/-- The graph the builder produces on the example execution.  Note that the
events of host B carry no pos: the rank pass is started on the first host
only and never reaches B here. -/
def exGraph : ModelGraph :=
  ⟨["A", "B"],
   [⟨exA1, none, some 1⟩, ⟨exA2, some ⟨HBType.child, exA1⟩, some 2⟩,
    ⟨exB1, none, none⟩, ⟨exB2, some ⟨HBType.external, exA2⟩, none⟩],
   [⟨exB2, some ⟨HBType.external, exA2⟩, none⟩]⟩

theorem mkModelGraph_exData : mkModelGraph exData = some exGraph := by decide

/-- Two hosts that never communicate. -/
def isoA : LogEvent := ⟨21, "A", ⟨[("A", 1)], "A", 1⟩⟩

def isoB : LogEvent := ⟨22, "B", ⟨[("B", 1)], "B", 1⟩⟩

/-- Claim C2 (code bug): on the two-event input where hosts A and B never
communicate, graph construction succeeds but only the first host is ranked:
computeVerticalNodePositionsPerHost is started on the first host only and the
cross-host recursion never reaches host B, so the event of B is handed to the
rendering layer with no pos annotation at all, contradicting the contract
that every event carries an integer rank of at least 1. -/
theorem rank_skips_unreachable_host :
    mkModelGraph [isoA, isoB] =
      some ⟨["A", "B"], [⟨isoA, none, some 1⟩, ⟨isoB, none, none⟩], []⟩ := by
  decide

/-- Counterexample to C3 as stated: the first event of host B constructed
from the clock B:0, A:2 has a clock entry for the foreign host A, yet no
genesis predecessor is synthesized and the event keeps no happened-before
link, because the stored clock (the zero own entry was dropped) has only one
entry. -/
theorem genesis_condition_not_foreign_entry :
    VectorTimestamp.make [("B", 0), ("A", 2)] "B" =
      some { clock := [("A", 2)], host := "B", ownTime := 0 }
  ∧ annotateHost [("B", [⟨31, "B", ⟨[("A", 2)], "B", 0⟩⟩])]
      [⟨31, "B", ⟨[("A", 2)], "B", 0⟩⟩] =
      some [(⟨31, "B", ⟨[("A", 2)], "B", 0⟩⟩, none)]
  ∧ alistGet [("A", 2)] "A" = some 2
  ∧ "A" ≠ "B" := by
  refine ⟨by decide, by decide, by decide, by decide⟩

/-- Claim C3 (amended): for the first event of a host, a virtual genesis
predecessor on the same host with a zero clock value is synthesized and the
happened-before link is resolved against it if and only if the constructed
clock has more than one entry; otherwise the first event keeps no
happened-before link.  Because a zero own entry is dropped at construction,
that condition is not equivalent to containing an entry for a foreign host
(see the counterexample). -/
theorem genesis_resolution (events : HostEvents) (e : LogEvent)
    (rest : List LogEvent) (out : List AnnEvent)
    (h : annotateHost events (e :: rest) = some out) :
    (e.vectorTimestamp.clock.length > 1 →
      ∃ hb tail, getHappenedBefore events e (genesisPrev e.host) = some hb ∧
        out = (e, some hb) :: tail)
  ∧ (¬ e.vectorTimestamp.clock.length > 1 → ∃ tail, out = (e, none) :: tail)
  ∧ (genesisPrev e.host).host = e.host
  ∧ alistGet (genesisPrev e.host).vectorTimestamp.clock e.host = some 0 := by
  refine ⟨?_, ?_, rfl, ?_⟩
  · intro hlen
    simp only [annotateHost] at h
    rw [if_pos hlen] at h
    cases hhb : getHappenedBefore events e (genesisPrev e.host) with
    | none => rw [hhb] at h; exact absurd h (by simp)
    | some hb =>
        rw [hhb] at h
        cases htl : annotateRest events e rest with
        | none => rw [htl] at h; exact absurd h (by simp)
        | some tail =>
            rw [htl] at h
            simp only [Option.some.injEq] at h
            exact ⟨hb, tail, rfl, h.symm⟩
  · intro hlen
    simp only [annotateHost] at h
    rw [if_neg hlen] at h
    cases htl : annotateRest events e rest with
    | none => rw [htl] at h; exact absurd h (by simp)
    | some tail =>
        rw [htl] at h
        simp only [Option.some.injEq] at h
        exact ⟨tail, h.symm⟩
  · rw [show (genesisPrev e.host).vectorTimestamp.clock = [(e.host, 0)] from rfl,
        alistGet_cons]
    simp

/-- A first event of host B that observes the clock of A: value A:2. -/
def wB1 : LogEvent := ⟨41, "B", ⟨[("B", 1), ("A", 2)], "B", 1⟩⟩

def wEvents : HostEvents := [("A", [exA1, exA2]), ("B", [wB1])]

/-- Witness for C3: the first event of B with clock B:1, A:2 gets its link
resolved against the genesis event. -/
theorem genesis_resolution_witness :
    (wB1.vectorTimestamp.clock.length > 1 →
      ∃ hb tail, getHappenedBefore wEvents wB1 (genesisPrev wB1.host) = some hb ∧
        [(wB1, some (HB.mk HBType.external exA2))] = (wB1, some hb) :: tail)
  ∧ (¬ wB1.vectorTimestamp.clock.length > 1 →
      ∃ tail, [(wB1, some (HB.mk HBType.external exA2))] = (wB1, none) :: tail)
  ∧ (genesisPrev wB1.host).host = wB1.host
  ∧ alistGet (genesisPrev wB1.host).vectorTimestamp.clock wB1.host = some 0 :=
  genesis_resolution wEvents wB1 [] [(wB1, some (HB.mk HBType.external exA2))] (by decide)

/-- Claim C5 (amended): the filter operation is a pure function of the
selected node list alone: it returns exactly the selected nodes whose
happened-before type is external, without recomputing any rank, and whenever
the selection is drawn from the nodes of a built graph the result is a subset
of the full edge list.  The target endpoint of an edge is not required to be
in the selection (see the counterexample). -/
theorem filteredEdges_spec (data : List LogEvent) (g : ModelGraph)
    (S : List DisplayEvent) (hg : mkModelGraph data = some g)
    (hS : ∀ s ∈ S, s ∈ g.displayData) :
    getFilteredEdges S = S.filter isExternalNode
  ∧ ∀ d ∈ getFilteredEdges S, d ∈ g.edges := by
  refine ⟨rfl, ?_⟩
  intro d hd
  rw [mkModelGraph_edges data g hg]
  unfold getFilteredEdges at hd
  have hmem := List.mem_of_mem_filter hd
  have hprop := List.of_mem_filter hd
  exact List.mem_filter.mpr ⟨hS d hmem, hprop⟩

/-- Witness for C5: selecting the single external node of the example graph. -/
theorem filteredEdges_spec_witness :
    getFilteredEdges [⟨exB2, some ⟨HBType.external, exA2⟩, none⟩] =
      [⟨exB2, some ⟨HBType.external, exA2⟩, none⟩].filter isExternalNode
  ∧ ∀ d ∈ getFilteredEdges [⟨exB2, some ⟨HBType.external, exA2⟩, none⟩],
      d ∈ exGraph.edges :=
  filteredEdges_spec exData exGraph [⟨exB2, some ⟨HBType.external, exA2⟩, none⟩]
    (by decide) (by decide)

/-- Counterexample to C5 as stated: selecting only the external node of B
from the example graph returns its edge although the target endpoint, the
event of A, is not in the selection; the claimed result (the edges with both
endpoints selected) would be empty. -/
theorem filteredEdges_ignores_target :
    mkModelGraph exData = some exGraph
  ∧ getFilteredEdges [⟨exB2, some ⟨HBType.external, exA2⟩, none⟩] =
      [⟨exB2, some ⟨HBType.external, exA2⟩, none⟩]
  ∧ (⟨exB2, some ⟨HBType.external, exA2⟩, none⟩ : DisplayEvent).happenedBefore =
      some ⟨HBType.external, exA2⟩
  ∧ exB2 ≠ exA2 :=
  ⟨mkModelGraph_exData, by decide, rfl, by decide⟩

/-- Claim C10: applying the filter operation to the full node list of a built
graph returns exactly the full edge list, the same events in the same order,
since both filter the same host-grouped node sequence by the same external
predicate. -/
theorem filteredEdges_of_all_nodes (data : List LogEvent) (g : ModelGraph)
    (h : mkModelGraph data = some g) :
    getFilteredEdges (ModelGraph.getNodes g) = ModelGraph.getEdges g := by
  have he := mkModelGraph_edges data g h
  unfold getFilteredEdges ModelGraph.getNodes ModelGraph.getEdges
  rw [he]

/-- Witness for C10 on a one-event input. -/
theorem filteredEdges_of_all_nodes_witness :
    getFilteredEdges (ModelGraph.getNodes ⟨["A"], [⟨exA1, none, some 1⟩], []⟩) =
      ModelGraph.getEdges ⟨["A"], [⟨exA1, none, some 1⟩], []⟩ :=
  filteredEdges_of_all_nodes [exA1] ⟨["A"], [⟨exA1, none, some 1⟩], []⟩ (by decide)

/-- The field-extraction step of ExecutionParser: for every named capture
group of the event pattern, in order, skip the names clock and event and
store the captured string under the name.  The name host is not skipped.
The capture function stands for the match object of the regex engine, which
is external to the embedding. -/
def extractFields (names : List String) (capture : String → String) :
    List (String × String) :=
  names.foldl
    (fun fields name =>
      if name = "clock" ∨ name = "event" then fields
      else alistSet fields name (capture name))
    []

theorem extractFields_go (names : List String) (capture : String → String)
    (acc : List (String × String))
    (hdisj : ∀ n ∈ names, (alistGet acc n).isNone) (hnd : names.Nodup) :
    names.foldl
      (fun fields name =>
        if name = "clock" ∨ name = "event" then fields
        else alistSet fields name (capture name))
      acc =
    acc ++ (names.filter (fun n => !(n == "clock") && !(n == "event"))).map
      (fun n => (n, capture n)) := by
  induction names generalizing acc with
  | nil => simp
  | cons n rest ih =>
      simp only [List.nodup_cons] at hnd
      obtain ⟨hn, hnd'⟩ := hnd
      by_cases hres : n = "clock" ∨ n = "event"
      · have hf : (n :: rest).filter (fun n => !(n == "clock") && !(n == "event")) =
            rest.filter (fun n => !(n == "clock") && !(n == "event")) := by
          rcases hres with h | h <;> simp [List.filter_cons, h]
        rw [hf]
        simp only [List.foldl_cons, if_pos hres]
        exact ih acc (fun x hx => hdisj x (List.mem_cons_of_mem n hx)) hnd'
      · have hf : (n :: rest).filter (fun n => !(n == "clock") && !(n == "event")) =
            n :: rest.filter (fun n => !(n == "clock") && !(n == "event")) := by
          push_neg at hres
          simp [List.filter_cons, hres.1, hres.2]
        rw [hf]
        simp only [List.foldl_cons, if_neg hres]
        have hset : alistSet acc n (capture n) = acc ++ [(n, capture n)] := by
          have hget := hdisj n (List.mem_cons_self n rest)
          clear hdisj ih
          induction acc with
          | nil => rfl
          | cons p accRest ihacc =>
              rw [alistGet_cons] at hget
              by_cases hp : p.1 = n
              · rw [if_pos hp] at hget
                simp at hget
              · rw [if_neg hp] at hget
                rw [alistSet_cons_neg p accRest n (capture n) hp, ihacc hget]
                rfl
        rw [hset]
        have hdisj' : ∀ x ∈ rest, (alistGet (acc ++ [(n, capture n)]) x).isNone := by
          intro x hx
          have hbase := hdisj x (List.mem_cons_of_mem n hx)
          have hxn : ¬(x = n) := fun he => hn (he ▸ hx)
          clear hdisj ih hset
          induction acc with
          | nil =>
              simp only [List.nil_append, alistGet_cons]
              rw [if_neg (fun he => hxn he.symm)]
              rfl
          | cons p accRest ihacc =>
              rw [alistGet_cons] at hbase
              by_cases hp : p.1 = x
              · rw [if_pos hp] at hbase
                simp at hbase
              · rw [if_neg hp] at hbase
                simp only [List.cons_append, alistGet_cons, if_neg hp]
                exact ihacc hbase
        rw [ih (acc ++ [(n, capture n)]) hdisj' hnd']
        simp

/-- Claim C8 (amended): for a duplicate-free list of named capture groups
(duplicates are rejected by NamedRegExp), the extracted fields mapping
contains exactly the names other than clock and event, in order, each mapped
to its captured string.  The reserved name host is NOT excluded: it appears
as a field key whenever the pattern names it (see the counterexample). -/
theorem extractFields_spec (names : List String) (capture : String → String)
    (hnd : names.Nodup) :
    extractFields names capture =
      (names.filter (fun n => !(n == "clock") && !(n == "event"))).map
        (fun n => (n, capture n)) := by
  unfold extractFields
  rw [extractFields_go names capture [] (fun n _ => rfl) hnd]
  rfl

/-- Witness for C8 with the mandatory groups and one extra group. -/
theorem extractFields_spec_witness :
    extractFields ["clock", "host", "event", "date"] (fun n => n) =
      (["clock", "host", "event", "date"].filter
        (fun n => !(n == "clock") && !(n == "event"))).map (fun n => (n, n)) :=
  extractFields_spec ["clock", "host", "event", "date"] (fun n => n) (by decide)

/-- Counterexample to C8 as stated: with exactly the three mandatory named
groups, the extracted fields contain the reserved name host as a key. -/
theorem extractFields_keeps_host :
    extractFields ["clock", "host", "event"] (fun n => n) = [("host", "host")]
  ∧ alistGet (extractFields ["clock", "host", "event"] (fun n => n)) "host" =
      some "host" := by
  exact ⟨rfl, rfl⟩

/-- An AbstractNode record: previous and next node (by id), family maps from
host to node id, owning host, sentinel flags.  The host is null (none) for
detached nodes; family-map keys are the host values used by the code.  The
graph-observer field and its notification events are external collaborators
and are not modelled; the global id counter is replaced by the heap index. -/
structure ANode where
  prev : Option Nat
  next : Option Nat
  hostToChild : List (Option String × Nat)
  hostToParent : List (Option String × Nat)
  host : Option String
  isHead : Bool
  isTail : Bool
deriving DecidableEq, Repr

/-- A fresh detached AbstractNode as left by the constructor. -/
def ANode.blank : ANode := ⟨none, none, [], [], none, false, false⟩

/-- The heap of AbstractNodes: the ids in use and the node stored at each. -/
structure World where
  ids : List Nat
  nodes : Nat → ANode

/-- Mutate the node stored at one id. -/
def upd (w : World) (i : Nat) (f : ANode → ANode) : World :=
  ⟨w.ids, Function.update w.nodes i (f (w.nodes i))⟩

/-- One step of the family-severance loop of remove: delete the child entry
of the other node under the removed node's current host key. -/
def severChildStep (x : Nat) (wa : World) (q : Option String × Nat) : World :=
  upd wa q.2 (fun a =>
    { a with hostToChild := alistErase a.hostToChild (wa.nodes x).host })

/-- One step of the second severance loop of remove: delete the parent entry
of the other node under the removed node's current host key. -/
def severParentStep (x : Nat) (wa : World) (q : Option String × Nat) : World :=
  upd wa q.2 (fun a =>
    { a with hostToParent := alistErase a.hostToParent (wa.nodes x).host })

/-- AbstractNode.prototype.remove.  none = the sentinel guard threw (no
mutation); a detached node (null prev or next) is a no-op; otherwise the node
is spliced out of the sequence, every family link is severed on the other
side under this node's current host key, its family maps are cleared and its
host nulled.  The JS code snapshots prev and next into locals first and
iterates the family maps it owns while deleting only from other nodes, which
the snapshot-based folds reproduce. -/
def removeOp (w : World) (x : Nat) : Option World :=
  if (w.nodes x).isHead || (w.nodes x).isTail then none
  else
    match (w.nodes x).prev, (w.nodes x).next with
    | some p, some n =>
        let w1 := upd w p (fun a => { a with next := some n })
        let w2 := upd w1 n (fun a => { a with prev := some p })
        let w3 := upd w2 x (fun a => { a with prev := none, next := none })
        let w4 := ((w3.nodes x).hostToParent).foldl (severChildStep x) w3
        let w5 := ((w4.nodes x).hostToChild).foldl (severParentStep x) w4
        let w6 := upd w5 x (fun a => { a with hostToChild := [], hostToParent := [] })
        some (upd w6 x (fun a => { a with host := none }))
    | _, _ => some w

/-- AbstractNode.prototype.insertNext.  A sentinel argument throws inside
remove (world unchanged); inserting after a detached anchor crashes on the
null next after three of the five mutations, and the partial mutation
persists (the world at the crash point is returned). -/
def insertNextOp (w : World) (t n : Nat) : World :=
  if (w.nodes t).next = some n then w
  else if (w.nodes t).isTail then w
  else
    match removeOp w n with
    | none => w
    | some w0 =>
        let w1 := upd w0 n (fun a => { a with prev := some t })
        let w2 := upd w1 n (fun a => { a with next := (w1.nodes t).next })
        let w3 := upd w2 t (fun a => { a with next := some n })
        match (w3.nodes n).next with
        | none => w3
        | some q =>
            let w4 := upd w3 q (fun a => { a with prev := some n })
            upd w4 n (fun a => { a with host := (w4.nodes t).host })

/-- AbstractNode.prototype.insertPrev, symmetric to insertNext. -/
def insertPrevOp (w : World) (t n : Nat) : World :=
  if (w.nodes t).prev = some n then w
  else if (w.nodes t).isHead then w
  else
    match removeOp w n with
    | none => w
    | some w0 =>
        let w1 := upd w0 n (fun a => { a with next := some t })
        let w2 := upd w1 n (fun a => { a with prev := (w1.nodes t).prev })
        let w3 := upd w2 t (fun a => { a with prev := some n })
        match (w3.nodes n).prev with
        | none => w3
        | some q =>
            let w4 := upd w3 q (fun a => { a with next := some n })
            upd w4 n (fun a => { a with host := (w4.nodes t).host })

/-- AbstractNode.prototype.removeChild: no-op unless the receiver's child map
holds the argument under the argument's host key; then both sides of the
relation are deleted.  The JS code reads this.host for the second delete
after the first delete, which does not change any host, so both keys are read
from w. -/
def removeChildOp (w : World) (s n : Nat) : World :=
  if alistGet (w.nodes s).hostToChild (w.nodes n).host ≠ some n then w
  else
    upd (upd w s (fun a =>
        { a with hostToChild := alistErase a.hostToChild (w.nodes n).host }))
      n (fun a =>
        { a with hostToParent := alistErase a.hostToParent (w.nodes s).host })

/-- AbstractNode.prototype.removeParent, symmetric to removeChild. -/
def removeParentOp (w : World) (s n : Nat) : World :=
  if alistGet (w.nodes s).hostToParent (w.nodes n).host ≠ some n then w
  else
    upd (upd w s (fun a =>
        { a with hostToParent := alistErase a.hostToParent (w.nodes n).host }))
      n (fun a =>
        { a with hostToChild := alistErase a.hostToChild (w.nodes s).host })

/-- AbstractNode.prototype.removeFamily. -/
def removeFamilyOp (w : World) (s n : Nat) : World :=
  removeParentOp (removeChildOp w s n) s n

/-- AbstractNode.prototype.removeChildByHost. -/
def removeChildByHostOp (w : World) (s : Nat) (h : Option String) : World :=
  match alistGet (w.nodes s).hostToChild h with
  | some n => removeChildOp w s n
  | none => w

/-- AbstractNode.prototype.removeParentByHost. -/
def removeParentByHostOp (w : World) (s : Nat) (h : Option String) : World :=
  match alistGet (w.nodes s).hostToParent h with
  | some n => removeParentOp w s n
  | none => w

/-- AbstractNode.prototype.addChild.  Guards: a sentinel argument and a
shared host throw (world unchanged); an already-existing exact relation is a
no-op.  The RECEIVER is not checked for being a sentinel.  Any existing child
of the receiver and any existing parent of the argument on the colliding
hosts are evicted first, then the symmetric pair is written.  The JS code
reads node.host and this.host at four points between which no host changes,
so all four reads are taken from w. -/
def addChildOp (w : World) (s n : Nat) : World :=
  if (w.nodes n).isHead || (w.nodes n).isTail then w
  else if (w.nodes n).host = (w.nodes s).host then w
  else if alistGet (w.nodes s).hostToChild (w.nodes n).host = some n then w
  else
    upd
      (removeParentByHostOp
        (upd (removeChildByHostOp w s (w.nodes n).host) s (fun a =>
          { a with hostToChild := alistSet a.hostToChild ((w.nodes n).host) n }))
        n ((w.nodes s).host))
      n (fun a =>
        { a with hostToParent := alistSet a.hostToParent ((w.nodes s).host) s })

/-- AbstractNode.prototype.addParent, symmetric to addChild. -/
def addParentOp (w : World) (s n : Nat) : World :=
  if (w.nodes n).isHead || (w.nodes n).isTail then w
  else if (w.nodes n).host = (w.nodes s).host then w
  else if alistGet (w.nodes s).hostToParent (w.nodes n).host = some n then w
  else
    upd
      (removeChildByHostOp
        (upd (removeParentByHostOp w s (w.nodes n).host) s (fun a =>
          { a with hostToParent := alistSet a.hostToParent ((w.nodes n).host) n }))
        n ((w.nodes s).host))
      n (fun a =>
        { a with hostToChild := alistSet a.hostToChild ((w.nodes s).host) s })

/-- One step of the clearChildren loop. -/
def clearChildStep (s : Nat) (wa : World) (q : Option String × Nat) : World :=
  removeChildOp wa s q.2

/-- One step of the clearParents loop. -/
def clearParentStep (s : Nat) (wa : World) (q : Option String × Nat) : World :=
  removeParentOp wa s q.2

/-- AbstractNode.prototype.clearChildren: remove every child, iterating the
snapshot of the map (each step deletes exactly the key it visits). -/
def clearChildrenOp (w : World) (s : Nat) : World :=
  ((w.nodes s).hostToChild).foldl (clearChildStep s) w

/-- AbstractNode.prototype.clearParents. -/
def clearParentsOp (w : World) (s : Nat) : World :=
  ((w.nodes s).hostToParent).foldl (clearParentStep s) w

/-- AbstractNode.prototype.clearFamily. -/
def clearFamilyOp (w : World) (s : Nat) : World :=
  clearParentsOp (clearChildrenOp w s) s

/-- The AbstractNode mutation operations named by the claim. -/
inductive Op
  | insertNext (t n : Nat)
  | insertPrev (t n : Nat)
  | remove (x : Nat)
  | addChild (s n : Nat)
  | addParent (s n : Nat)
  | removeChild (s n : Nat)
  | removeParent (s n : Nat)
  | removeFamily (s n : Nat)
  | clearChildren (s : Nat)
  | clearParents (s : Nat)
  | clearFamily (s : Nat)
deriving DecidableEq, Repr

/-- Run one operation; a throw that happens before any mutation leaves the
world unchanged, and a crash mid-mutation leaves the partial state. -/
def applyOp (w : World) : Op → World
  | Op.insertNext t n => insertNextOp w t n
  | Op.insertPrev t n => insertPrevOp w t n
  | Op.remove x =>
      match removeOp w x with
      | none => w
      | some w' => w'
  | Op.addChild s n => addChildOp w s n
  | Op.addParent s n => addParentOp w s n
  | Op.removeChild s n => removeChildOp w s n
  | Op.removeParent s n => removeParentOp w s n
  | Op.removeFamily s n => removeFamilyOp w s n
  | Op.clearChildren s => clearChildrenOp w s
  | Op.clearParents s => clearParentsOp w s
  | Op.clearFamily s => clearFamilyOp w s

def applyOps : World → List Op → World
  | w, [] => w
  | w, op :: rest => applyOps (applyOp w op) rest

/-- Next and prev are mutually consistent at a node. -/
def NextOK (w : World) (a : Nat) : Prop :=
  (∀ b ∈ (w.nodes a).next, (w.nodes b).prev = some a)
  ∧ (∀ b ∈ (w.nodes a).prev, (w.nodes b).next = some a)

/-- Every child entry is well formed: the child is a known node whose host
matches the key, the key differs from the owner's host, and the child holds
the symmetric parent entry. -/
def ChildEntriesOK (w : World) (a : Nat) : Prop :=
  ∀ p ∈ (w.nodes a).hostToChild,
    p.2 ∈ w.ids ∧ (w.nodes p.2).host = p.1 ∧ p.1 ≠ (w.nodes a).host ∧
      alistGet (w.nodes p.2).hostToParent (w.nodes a).host = some a

/-- Every parent entry is well formed, symmetrically. -/
def ParentEntriesOK (w : World) (a : Nat) : Prop :=
  ∀ p ∈ (w.nodes a).hostToParent,
    p.2 ∈ w.ids ∧ (w.nodes p.2).host = p.1 ∧ p.1 ≠ (w.nodes a).host ∧
      alistGet (w.nodes p.2).hostToChild (w.nodes a).host = some a

/-- The family maps have no duplicate host key, so all children (and all
parents) of a node belong to distinct hosts. -/
def KeysOK (w : World) (a : Nat) : Prop :=
  ((w.nodes a).hostToChild.map Prod.fst).Nodup
  ∧ ((w.nodes a).hostToParent.map Prod.fst).Nodup

/-- Head and tail sentinel nodes have no family relations. -/
def SentinelOK (w : World) (a : Nat) : Prop :=
  ((w.nodes a).isHead || (w.nodes a).isTail) = true →
    (w.nodes a).hostToChild = [] ∧ (w.nodes a).hostToParent = []

/-- A non-sentinel node is either fully linked or fully detached. -/
def LinkedOK (w : World) (a : Nat) : Prop :=
  ((w.nodes a).isHead || (w.nodes a).isTail) = false →
    ((w.nodes a).prev.isSome ↔ (w.nodes a).next.isSome)

/-- The structural invariants of the AbstractNode heap, at every known node:
next/prev mutual consistency; child/parent mutual consistency with matching
host keys and no same-host family; per-host uniqueness of family members;
sentinels without family; non-sentinels fully linked or fully detached. -/
def NodeInv (w : World) : Prop :=
  ∀ a ∈ w.ids, NextOK w a ∧ ChildEntriesOK w a ∧ ParentEntriesOK w a ∧
    KeysOK w a ∧ SentinelOK w a ∧ LinkedOK w a

theorem alistGet_mem {κ α : Type} [DecidableEq κ] (m : List (κ × α)) (k : κ) (v : α)
    (h : alistGet m k = some v) : (k, v) ∈ m := by
  induction m with
  | nil => simp [alistGet_nil] at h
  | cons p rest ih =>
      rw [alistGet_cons] at h
      by_cases hp : p.1 = k
      · rw [if_pos hp] at h
        simp only [Option.some.injEq] at h
        have hpe : p = (k, v) := by
          rcases p with ⟨pk, pv⟩
          simp only at hp h
          rw [hp, h]
        rw [← hpe]
        exact List.mem_cons_self p rest
      · rw [if_neg hp] at h
        exact List.mem_cons_of_mem p (ih h)

theorem alistGet_eq_some_of_mem {κ α : Type} [DecidableEq κ] (m : List (κ × α)) (k : κ)
    (v : α) (hnd : (m.map Prod.fst).Nodup) (h : (k, v) ∈ m) : alistGet m k = some v := by
  induction m with
  | nil => simp at h
  | cons p rest ih =>
      simp only [List.map_cons, List.nodup_cons] at hnd
      obtain ⟨hk, hnd'⟩ := hnd
      rw [alistGet_cons]
      rcases List.mem_cons.mp h with h1 | h1
      · rw [← h1]
        simp
      · have hpk : ¬p.1 = k := by
          intro he
          exact hk (List.mem_map.mpr ⟨(k, v), h1, he.symm⟩)
        rw [if_neg hpk]
        exact ih hnd' h1

theorem alistGet_eq_none_of_forall {κ α : Type} [DecidableEq κ] (m : List (κ × α)) (k : κ)
    (h : ∀ p ∈ m, p.1 ≠ k) : alistGet m k = none := by
  induction m with
  | nil => rfl
  | cons p rest ih =>
      rw [alistGet_cons, if_neg (h p (List.mem_cons_self p rest))]
      exact ih (fun q hq => h q (List.mem_cons_of_mem p hq))

theorem mem_alistErase {κ α : Type} [DecidableEq κ] (m : List (κ × α)) (k : κ)
    (p : κ × α) (hp : p ∈ alistErase m k) : p ∈ m := by
  induction m with
  | nil => simp [alistErase] at hp
  | cons q rest ih =>
      unfold alistErase at hp
      by_cases hq : q.1 = k
      · rw [if_pos hq] at hp
        exact List.mem_cons_of_mem q hp
      · rw [if_neg hq] at hp
        rcases List.mem_cons.mp hp with h1 | h1
        · rw [h1]; exact List.mem_cons_self q rest
        · exact List.mem_cons_of_mem q (ih h1)

theorem mem_alistErase_key {κ α : Type} [DecidableEq κ] (m : List (κ × α)) (k : κ)
    (hnd : (m.map Prod.fst).Nodup) (p : κ × α) (hp : p ∈ alistErase m k) : p.1 ≠ k := by
  induction m with
  | nil => simp [alistErase] at hp
  | cons q rest ih =>
      simp only [List.map_cons, List.nodup_cons] at hnd
      obtain ⟨hk, hnd'⟩ := hnd
      unfold alistErase at hp
      by_cases hq : q.1 = k
      · rw [if_pos hq] at hp
        intro he
        exact hk (List.mem_map.mpr ⟨p, hp, by rw [he, hq]⟩)
      · rw [if_neg hq] at hp
        rcases List.mem_cons.mp hp with h1 | h1
        · rw [h1]; exact hq
        · exact ih hnd' h1

theorem mem_alistErase_of_mem {κ α : Type} [DecidableEq κ] (m : List (κ × α)) (k : κ)
    (p : κ × α) (hp : p ∈ m) (hk : p.1 ≠ k) : p ∈ alistErase m k := by
  induction m with
  | nil => simp at hp
  | cons q rest ih =>
      unfold alistErase
      by_cases hq : q.1 = k
      · rw [if_pos hq]
        rcases List.mem_cons.mp hp with h1 | h1
        · exact absurd (h1 ▸ hq) hk
        · exact h1
      · rw [if_neg hq]
        rcases List.mem_cons.mp hp with h1 | h1
        · rw [h1]; exact List.mem_cons_self q _
        · exact List.mem_cons_of_mem q (ih h1)

theorem alistGet_erase_self {κ α : Type} [DecidableEq κ] (m : List (κ × α)) (k : κ)
    (hnd : (m.map Prod.fst).Nodup) : alistGet (alistErase m k) k = none := by
  apply alistGet_eq_none_of_forall
  intro p hp
  exact mem_alistErase_key m k hnd p hp

theorem alistGet_erase_other {κ α : Type} [DecidableEq κ] (m : List (κ × α)) (k k' : κ)
    (h : k' ≠ k) : alistGet (alistErase m k) k' = alistGet m k' := by
  induction m with
  | nil => rfl
  | cons q rest ih =>
      unfold alistErase
      by_cases hq : q.1 = k
      · rw [if_pos hq, alistGet_cons, if_neg (by rw [hq]; exact fun he => h he.symm)]
      · rw [if_neg hq, alistGet_cons, alistGet_cons, ih]

theorem keys_alistErase_sublist {κ α : Type} [DecidableEq κ] (m : List (κ × α)) (k : κ) :
    ((alistErase m k).map Prod.fst).Sublist (m.map Prod.fst) := by
  induction m with
  | nil => simp [alistErase]
  | cons q rest ih =>
      unfold alistErase
      by_cases hq : q.1 = k
      · rw [if_pos hq]
        simp only [List.map_cons]
        exact List.sublist_cons_of_sublist q.1 (List.Sublist.refl _)
      · rw [if_neg hq]
        simp only [List.map_cons]
        exact List.Sublist.cons₂ q.1 ih

theorem nodup_keys_alistErase {κ α : Type} [DecidableEq κ] (m : List (κ × α)) (k : κ)
    (hnd : (m.map Prod.fst).Nodup) : ((alistErase m k).map Prod.fst).Nodup :=
  List.Nodup.sublist (keys_alistErase_sublist m k) hnd

theorem alistErase_nil_of_eq {κ α : Type} [DecidableEq κ] (m : List (κ × α)) (k : κ)
    (h : m = []) : alistErase m k = [] := by
  rw [h]; rfl

theorem alistSet_append_of_not_mem {κ α : Type} [DecidableEq κ] (m : List (κ × α))
    (k : κ) (v : α) (h : alistGet m k = none) : alistSet m k v = m ++ [(k, v)] := by
  induction m with
  | nil => rfl
  | cons q rest ih =>
      rw [alistGet_cons] at h
      by_cases hq : q.1 = k
      · rw [if_pos hq] at h
        simp at h
      · rw [if_neg hq] at h
        rw [alistSet_cons_neg q rest k v hq, ih h]
        rfl

theorem keys_alistSet_of_none {κ α : Type} [DecidableEq κ] (m : List (κ × α)) (k : κ)
    (v : α) (hnd : (m.map Prod.fst).Nodup) (h : alistGet m k = none) :
    ((alistSet m k v).map Prod.fst).Nodup := by
  rw [alistSet_append_of_not_mem m k v h]
  simp only [List.map_append, List.map_cons, List.map_nil]
  rw [List.nodup_append]
  refine ⟨hnd, List.nodup_singleton k, ?_⟩
  intro x hx
  simp only [List.mem_singleton]
  intro he
  rcases List.mem_map.mp hx with ⟨p, hp, hpx⟩
  rw [he] at hpx
  have : alistGet m k ≠ none := by
    rw [alistGet_eq_some_of_mem m k p.2 hnd (by rw [← hpx]; exact hp)]
    simp
  exact this h

theorem alistGet_ne_none_of_mem {κ α : Type} [DecidableEq κ] (m : List (κ × α))
    (p : κ × α) (hp : p ∈ m) : alistGet m p.1 ≠ none := by
  induction m with
  | nil => simp at hp
  | cons q rest ih =>
      rw [alistGet_cons]
      rcases List.mem_cons.mp hp with h1 | h1
      · rw [h1]
        simp
      · by_cases hq : q.1 = p.1
        · rw [if_pos hq]
          simp
        · rw [if_neg hq]
          exact ih h1

theorem mem_alistSet_cases {κ α : Type} [DecidableEq κ] (m : List (κ × α)) (k : κ)
    (v : α) (h : alistGet m k = none) (p : κ × α) (hp : p ∈ alistSet m k v) :
    (p ∈ m ∧ p.1 ≠ k) ∨ p = (k, v) := by
  rw [alistSet_append_of_not_mem m k v h] at hp
  rcases List.mem_append.mp hp with h1 | h1
  · left
    refine ⟨h1, ?_⟩
    intro he
    exact alistGet_ne_none_of_mem m p h1 (he ▸ h)
  · right
    simpa using h1

theorem upd_ids (w : World) (i : Nat) (f : ANode → ANode) : (upd w i f).ids = w.ids := rfl

theorem upd_nodes_same (w : World) (i : Nat) (f : ANode → ANode) :
    (upd w i f).nodes i = f (w.nodes i) := by
  unfold upd
  simp [Function.update_same]

theorem upd_nodes_ne (w : World) (i : Nat) (f : ANode → ANode) (j : Nat) (h : j ≠ i) :
    (upd w i f).nodes j = w.nodes j := by
  unfold upd
  simp [Function.update_noteq h]

/-- The prev, next, host and sentinel-flag fields of every node agree between
two worlds (only family maps may differ). -/
def LinkFieldsEq (w w' : World) : Prop :=
  ∀ b, (w'.nodes b).prev = (w.nodes b).prev ∧ (w'.nodes b).next = (w.nodes b).next ∧
    (w'.nodes b).host = (w.nodes b).host ∧ (w'.nodes b).isHead = (w.nodes b).isHead ∧
    (w'.nodes b).isTail = (w.nodes b).isTail

theorem linkFieldsEq_refl (w : World) : LinkFieldsEq w w :=
  fun _ => ⟨rfl, rfl, rfl, rfl, rfl⟩

theorem linkFieldsEq_trans {u v : World} {x : World} (h1 : LinkFieldsEq u v)
    (h2 : LinkFieldsEq v x) : LinkFieldsEq u x := by
  intro b
  obtain ⟨a1, a2, a3, a4, a5⟩ := h1 b
  obtain ⟨b1, b2, b3, b4, b5⟩ := h2 b
  exact ⟨b1.trans a1, b2.trans a2, b3.trans a3, b4.trans a4, b5.trans a5⟩

/-- Updating only the family maps of one node preserves the link fields. -/
theorem linkFieldsEq_upd (w : World) (i : Nat) (f : ANode → ANode)
    (hf : ∀ a, (f a).prev = a.prev ∧ (f a).next = a.next ∧ (f a).host = a.host ∧
      (f a).isHead = a.isHead ∧ (f a).isTail = a.isTail) :
    LinkFieldsEq w (upd w i f) := by
  intro b
  by_cases hb : b = i
  · rw [hb, upd_nodes_same]
    exact hf (w.nodes i)
  · rw [upd_nodes_ne w i f b hb]
    exact ⟨rfl, rfl, rfl, rfl, rfl⟩

theorem nextOK_of_linkFieldsEq {w w' : World} (h : LinkFieldsEq w w') (a : Nat)
    (ha : NextOK w a) : NextOK w' a := by
  constructor
  · intro b hb
    rw [(h a).2.1] at hb
    rw [(h b).1]
    exact ha.1 b hb
  · intro b hb
    rw [(h a).1] at hb
    rw [(h b).2.1]
    exact ha.2 b hb

theorem linkedOK_of_linkFieldsEq {w w' : World} (h : LinkFieldsEq w w') (a : Nat)
    (ha : LinkedOK w a) : LinkedOK w' a := by
  intro hs
  rw [(h a).2.2.2.1, (h a).2.2.2.2] at hs
  rw [(h a).1, (h a).2.1]
  exact ha hs

theorem removeChildOp_preserves (w : World) (s n : Nat) (hw : NodeInv w)
    (hsi : s ∈ w.ids) (hni : n ∈ w.ids) : NodeInv (removeChildOp w s n) := by
  unfold removeChildOp
  by_cases hgalt : alistGet (w.nodes s).hostToChild (w.nodes n).host ≠ some n
  · rw [if_pos hgalt]
    exact hw
  · rw [if_neg hgalt]
    push_neg at hgalt
    have hmem : ((w.nodes n).host, n) ∈ (w.nodes s).hostToChild :=
      alistGet_mem _ _ _ hgalt
    obtain ⟨_, _, hkne, hsym⟩ := (hw s hsi).2.1 _ hmem
    have hsn : s ≠ n := by
      intro he
      rw [he] at hkne
      exact hkne rfl
    have hns : n ≠ s := fun he => hsn he.symm
    set k := (w.nodes n).host with hk
    set hosts := (w.nodes s).host with hhs
    set w' := upd (upd w s (fun a =>
        { a with hostToChild := alistErase a.hostToChild k }))
      n (fun a =>
        { a with hostToParent := alistErase a.hostToParent hosts }) with hw'
    have hcm : ∀ b, (w'.nodes b).hostToChild =
        if b = s then alistErase ((w.nodes s).hostToChild) k
        else (w.nodes b).hostToChild := by
      intro b
      by_cases hb : b = n
      · rw [hb, if_neg hns, hw', upd_nodes_same, upd_nodes_ne w s _ n hns]
      · by_cases hb2 : b = s
        · rw [hb2, if_pos rfl, hw', upd_nodes_ne _ n _ s hsn, upd_nodes_same]
        · rw [if_neg hb2, hw', upd_nodes_ne _ n _ b hb, upd_nodes_ne w s _ b hb2]
    have hpm : ∀ b, (w'.nodes b).hostToParent =
        if b = n then alistErase ((w.nodes n).hostToParent) hosts
        else (w.nodes b).hostToParent := by
      intro b
      by_cases hb : b = n
      · rw [hb, if_pos rfl, hw', upd_nodes_same, upd_nodes_ne w s _ n hns]
      · by_cases hb2 : b = s
        · rw [hb2, if_neg (hb2 ▸ hb), hw', upd_nodes_ne _ n _ s hsn, upd_nodes_same]
        · rw [if_neg hb, hw', upd_nodes_ne _ n _ b hb, upd_nodes_ne w s _ b hb2]
    have hlf : LinkFieldsEq w w' := by
      apply linkFieldsEq_trans (v := upd w s (fun a =>
        { a with hostToChild := alistErase a.hostToChild k }))
      · exact linkFieldsEq_upd w s _ (fun a => ⟨rfl, rfl, rfl, rfl, rfl⟩)
      · exact linkFieldsEq_upd _ n _ (fun a => ⟨rfl, rfl, rfl, rfl, rfl⟩)
    intro a ha
    have ha' : a ∈ w.ids := ha
    obtain ⟨hNext, hChild, hParent, hKeys, hSent, hLink⟩ := hw a ha'
    refine ⟨nextOK_of_linkFieldsEq hlf a hNext, ?_, ?_, ?_, ?_,
      linkedOK_of_linkFieldsEq hlf a hLink⟩
    · intro p hp
      rw [hcm a] at hp
      by_cases has : a = s
      · rw [has, if_pos rfl] at hp
        have hpm2 : p ∈ (w.nodes s).hostToChild := mem_alistErase _ _ _ hp
        obtain ⟨pids, phost, pne, psym⟩ := (hw s hsi).2.1 p hpm2
        have hp2n : p.2 ≠ n := by
          intro he
          have hkey := mem_alistErase_key _ _ ((hw s hsi).2.2.2.1).1 p hp
          rw [he] at phost
          exact hkey (phost ▸ hk ▸ rfl)
        refine ⟨pids, ?_, ?_, ?_⟩
        · rw [(hlf p.2).2.2.1]
          exact phost
        · rw [has, (hlf s).2.2.1]
          exact pne
        · rw [(hlf a).2.2.1, hpm p.2, if_neg hp2n, has]
          exact psym
      · rw [if_neg has] at hp
        obtain ⟨pids, phost, pne, psym⟩ := hChild p hp
        refine ⟨pids, ?_, ?_, ?_⟩
        · rw [(hlf p.2).2.2.1]
          exact phost
        · rw [(hlf a).2.2.1]
          exact pne
        · rw [(hlf a).2.2.1, hpm p.2]
          by_cases hp2 : p.2 = n
          · rw [if_pos hp2]
            have hane : (w.nodes a).host ≠ hosts := by
              intro he
              rw [hp2] at psym
              rw [he] at psym
              rw [psym] at hsym
              exact has (Option.some.injEq _ _ ▸ hsym)
            rw [alistGet_erase_other _ _ _ hane]
            rw [hp2] at psym
            exact psym
          · rw [if_neg hp2]
            exact psym
    · intro p hp
      rw [hpm a] at hp
      by_cases han : a = n
      · rw [han, if_pos rfl] at hp
        have hpm2 : p ∈ (w.nodes n).hostToParent := mem_alistErase _ _ _ hp
        obtain ⟨pids, phost, pne, psym⟩ := (hw n hni).2.2.1 p hpm2
        have hp2s : p.2 ≠ s := by
          intro he
          have hkey := mem_alistErase_key _ _ ((hw n hni).2.2.2.1).2 p hp
          rw [he] at phost
          exact hkey (phost ▸ hhs ▸ rfl)
        refine ⟨pids, ?_, ?_, ?_⟩
        · rw [(hlf p.2).2.2.1]
          exact phost
        · rw [han, (hlf n).2.2.1]
          exact pne
        · rw [(hlf a).2.2.1, hcm p.2, if_neg hp2s, han]
          exact psym
      · rw [if_neg han] at hp
        obtain ⟨pids, phost, pne, psym⟩ := hParent p hp
        refine ⟨pids, ?_, ?_, ?_⟩
        · rw [(hlf p.2).2.2.1]
          exact phost
        · rw [(hlf a).2.2.1]
          exact pne
        · rw [(hlf a).2.2.1, hcm p.2]
          by_cases hp2 : p.2 = s
          · rw [if_pos hp2]
            have hane : (w.nodes a).host ≠ k := by
              intro he
              rw [hp2] at psym
              rw [he] at psym
              rw [psym] at hgalt
              exact han (Option.some.injEq _ _ ▸ hgalt)
            rw [alistGet_erase_other _ _ _ hane]
            rw [hp2] at psym
            exact psym
          · rw [if_neg hp2]
            exact psym
    · constructor
      · rw [hcm a]
        by_cases has : a = s
        · rw [if_pos has]
          exact nodup_keys_alistErase _ _ (has ▸ hKeys.1)
        · rw [if_neg has]
          exact hKeys.1
      · rw [hpm a]
        by_cases han : a = n
        · rw [if_pos han]
          exact nodup_keys_alistErase _ _ (han ▸ hKeys.2)
        · rw [if_neg han]
          exact hKeys.2
    · intro hflag
      have hflag' : ((w.nodes a).isHead || (w.nodes a).isTail) = true := by
        rw [← (hlf a).2.2.2.1, ← (hlf a).2.2.2.2]
        exact hflag
      obtain ⟨hc0, hp0⟩ := hSent hflag'
      constructor
      · rw [hcm a]
        by_cases has : a = s
        · rw [if_pos has, alistErase_nil_of_eq _ _ (has ▸ hc0)]
        · rw [if_neg has]
          exact hc0
      · rw [hpm a]
        by_cases han : a = n
        · rw [if_pos han, alistErase_nil_of_eq _ _ (han ▸ hp0)]
        · rw [if_neg han]
          exact hp0

theorem removeParentOp_preserves (w : World) (s n : Nat) (hw : NodeInv w)
    (hsi : s ∈ w.ids) (hni : n ∈ w.ids) : NodeInv (removeParentOp w s n) := by
  unfold removeParentOp
  by_cases hgalt : alistGet (w.nodes s).hostToParent (w.nodes n).host ≠ some n
  · rw [if_pos hgalt]
    exact hw
  · rw [if_neg hgalt]
    push_neg at hgalt
    have hmem : ((w.nodes n).host, n) ∈ (w.nodes s).hostToParent :=
      alistGet_mem _ _ _ hgalt
    obtain ⟨_, _, hkne, hsym⟩ := (hw s hsi).2.2.1 _ hmem
    have hsn : s ≠ n := by
      intro he
      rw [he] at hkne
      exact hkne rfl
    have hns : n ≠ s := fun he => hsn he.symm
    set k := (w.nodes n).host with hk
    set hosts := (w.nodes s).host with hhs
    set w' := upd (upd w s (fun a =>
        { a with hostToParent := alistErase a.hostToParent k }))
      n (fun a =>
        { a with hostToChild := alistErase a.hostToChild hosts }) with hw'
    have hpm : ∀ b, (w'.nodes b).hostToParent =
        if b = s then alistErase ((w.nodes s).hostToParent) k
        else (w.nodes b).hostToParent := by
      intro b
      by_cases hb : b = n
      · rw [hb, if_neg hns, hw', upd_nodes_same, upd_nodes_ne w s _ n hns]
      · by_cases hb2 : b = s
        · rw [hb2, if_pos rfl, hw', upd_nodes_ne _ n _ s hsn, upd_nodes_same]
        · rw [if_neg hb2, hw', upd_nodes_ne _ n _ b hb, upd_nodes_ne w s _ b hb2]
    have hcm : ∀ b, (w'.nodes b).hostToChild =
        if b = n then alistErase ((w.nodes n).hostToChild) hosts
        else (w.nodes b).hostToChild := by
      intro b
      by_cases hb : b = n
      · rw [hb, if_pos rfl, hw', upd_nodes_same, upd_nodes_ne w s _ n hns]
      · by_cases hb2 : b = s
        · rw [hb2, if_neg (hb2 ▸ hb), hw', upd_nodes_ne _ n _ s hsn, upd_nodes_same]
        · rw [if_neg hb, hw', upd_nodes_ne _ n _ b hb, upd_nodes_ne w s _ b hb2]
    have hlf : LinkFieldsEq w w' := by
      apply linkFieldsEq_trans (v := upd w s (fun a =>
        { a with hostToParent := alistErase a.hostToParent k }))
      · exact linkFieldsEq_upd w s _ (fun a => ⟨rfl, rfl, rfl, rfl, rfl⟩)
      · exact linkFieldsEq_upd _ n _ (fun a => ⟨rfl, rfl, rfl, rfl, rfl⟩)
    intro a ha
    have ha' : a ∈ w.ids := ha
    obtain ⟨hNext, hChild, hParent, hKeys, hSent, hLink⟩ := hw a ha'
    refine ⟨nextOK_of_linkFieldsEq hlf a hNext, ?_, ?_, ?_, ?_,
      linkedOK_of_linkFieldsEq hlf a hLink⟩
    · intro p hp
      rw [hcm a] at hp
      by_cases han : a = n
      · rw [han, if_pos rfl] at hp
        have hpm2 : p ∈ (w.nodes n).hostToChild := mem_alistErase _ _ _ hp
        obtain ⟨pids, phost, pne, psym⟩ := (hw n hni).2.1 p hpm2
        have hp2s : p.2 ≠ s := by
          intro he
          have hkey := mem_alistErase_key _ _ ((hw n hni).2.2.2.1).1 p hp
          rw [he] at phost
          exact hkey (phost ▸ hhs ▸ rfl)
        refine ⟨pids, ?_, ?_, ?_⟩
        · rw [(hlf p.2).2.2.1]
          exact phost
        · rw [han, (hlf n).2.2.1]
          exact pne
        · rw [(hlf a).2.2.1, hpm p.2, if_neg hp2s, han]
          exact psym
      · rw [if_neg han] at hp
        obtain ⟨pids, phost, pne, psym⟩ := hChild p hp
        refine ⟨pids, ?_, ?_, ?_⟩
        · rw [(hlf p.2).2.2.1]
          exact phost
        · rw [(hlf a).2.2.1]
          exact pne
        · rw [(hlf a).2.2.1, hpm p.2]
          by_cases hp2 : p.2 = s
          · rw [if_pos hp2]
            have hane : (w.nodes a).host ≠ k := by
              intro he
              rw [hp2] at psym
              rw [he] at psym
              rw [psym] at hgalt
              exact han (Option.some.injEq _ _ ▸ hgalt)
            rw [alistGet_erase_other _ _ _ hane]
            rw [hp2] at psym
            exact psym
          · rw [if_neg hp2]
            exact psym
    · intro p hp
      rw [hpm a] at hp
      by_cases has : a = s
      · rw [has, if_pos rfl] at hp
        have hpm2 : p ∈ (w.nodes s).hostToParent := mem_alistErase _ _ _ hp
        obtain ⟨pids, phost, pne, psym⟩ := (hw s hsi).2.2.1 p hpm2
        have hp2n : p.2 ≠ n := by
          intro he
          have hkey := mem_alistErase_key _ _ ((hw s hsi).2.2.2.1).2 p hp
          rw [he] at phost
          exact hkey (phost ▸ hk ▸ rfl)
        refine ⟨pids, ?_, ?_, ?_⟩
        · rw [(hlf p.2).2.2.1]
          exact phost
        · rw [has, (hlf s).2.2.1]
          exact pne
        · rw [(hlf a).2.2.1, hcm p.2, if_neg hp2n, has]
          exact psym
      · rw [if_neg has] at hp
        obtain ⟨pids, phost, pne, psym⟩ := hParent p hp
        refine ⟨pids, ?_, ?_, ?_⟩
        · rw [(hlf p.2).2.2.1]
          exact phost
        · rw [(hlf a).2.2.1]
          exact pne
        · rw [(hlf a).2.2.1, hcm p.2]
          by_cases hp2 : p.2 = n
          · rw [if_pos hp2]
            have hane : (w.nodes a).host ≠ hosts := by
              intro he
              rw [hp2] at psym
              rw [he] at psym
              rw [psym] at hsym
              exact has (Option.some.injEq _ _ ▸ hsym)
            rw [alistGet_erase_other _ _ _ hane]
            rw [hp2] at psym
            exact psym
          · rw [if_neg hp2]
            exact psym
    · constructor
      · rw [hcm a]
        by_cases han : a = n
        · rw [if_pos han]
          exact nodup_keys_alistErase _ _ (han ▸ hKeys.1)
        · rw [if_neg han]
          exact hKeys.1
      · rw [hpm a]
        by_cases has : a = s
        · rw [if_pos has]
          exact nodup_keys_alistErase _ _ (has ▸ hKeys.2)
        · rw [if_neg has]
          exact hKeys.2
    · intro hflag
      have hflag' : ((w.nodes a).isHead || (w.nodes a).isTail) = true := by
        rw [← (hlf a).2.2.2.1, ← (hlf a).2.2.2.2]
        exact hflag
      obtain ⟨hc0, hp0⟩ := hSent hflag'
      constructor
      · rw [hcm a]
        by_cases han : a = n
        · rw [if_pos han, alistErase_nil_of_eq _ _ (han ▸ hc0)]
        · rw [if_neg han]
          exact hc0
      · rw [hpm a]
        by_cases has : a = s
        · rw [if_pos has, alistErase_nil_of_eq _ _ (has ▸ hp0)]
        · rw [if_neg has]
          exact hp0

theorem World.ext' (w1 w2 : World) (h1 : w1.ids = w2.ids)
    (h2 : ∀ b, w1.nodes b = w2.nodes b) : w1 = w2 := by
  cases w1
  cases w2
  simp only [World.mk.injEq]
  exact ⟨h1, funext h2⟩

theorem upd_comm (w : World) (i j : Nat) (f g : ANode → ANode) (hij : i ≠ j) :
    upd (upd w i f) j g = upd (upd w j g) i f := by
  refine World.ext' _ _ rfl ?_
  intro b
  by_cases hbi : b = i
  · rw [hbi, upd_nodes_ne _ j _ i hij, upd_nodes_same, upd_nodes_same,
        upd_nodes_ne _ j _ i hij]
  · by_cases hbj : b = j
    · rw [hbj, upd_nodes_same, upd_nodes_ne _ i _ j (fun he => hij he.symm),
          upd_nodes_ne _ i _ j (fun he => hij he.symm), upd_nodes_same]
    · rw [upd_nodes_ne _ j _ b hbj, upd_nodes_ne _ i _ b hbi,
          upd_nodes_ne _ i _ b hbi, upd_nodes_ne _ j _ b hbj]

theorem removeChildOp_noop (w : World) (s n : Nat)
    (hg : alistGet (w.nodes s).hostToChild (w.nodes n).host ≠ some n) :
    removeChildOp w s n = w := by
  unfold removeChildOp
  rw [if_pos hg]

theorem removeChildOp_eq_upd (w : World) (s n : Nat)
    (hg : alistGet (w.nodes s).hostToChild (w.nodes n).host = some n) :
    removeChildOp w s n =
      upd (upd w s (fun a =>
          { a with hostToChild := alistErase a.hostToChild (w.nodes n).host }))
        n (fun a =>
          { a with hostToParent := alistErase a.hostToParent (w.nodes s).host }) := by
  unfold removeChildOp
  rw [if_neg (fun hne => hne hg)]

theorem removeParentOp_noop (w : World) (s n : Nat)
    (hg : alistGet (w.nodes s).hostToParent (w.nodes n).host ≠ some n) :
    removeParentOp w s n = w := by
  unfold removeParentOp
  rw [if_pos hg]

theorem removeParentOp_eq_upd (w : World) (s n : Nat)
    (hg : alistGet (w.nodes s).hostToParent (w.nodes n).host = some n) :
    removeParentOp w s n =
      upd (upd w s (fun a =>
          { a with hostToParent := alistErase a.hostToParent (w.nodes n).host }))
        n (fun a =>
          { a with hostToChild := alistErase a.hostToChild (w.nodes s).host }) := by
  unfold removeParentOp
  rw [if_neg (fun hne => hne hg)]

theorem removeChildOp_ids (w : World) (s n : Nat) : (removeChildOp w s n).ids = w.ids := by
  unfold removeChildOp
  split
  · rfl
  · rfl

theorem removeParentOp_ids (w : World) (s n : Nat) : (removeParentOp w s n).ids = w.ids := by
  unfold removeParentOp
  split
  · rfl
  · rfl

theorem removeChildOp_linkFields (w : World) (s n : Nat) :
    LinkFieldsEq w (removeChildOp w s n) := by
  unfold removeChildOp
  split
  · exact linkFieldsEq_refl w
  · exact linkFieldsEq_trans
      (v := upd w s (fun a =>
        { a with hostToChild := alistErase a.hostToChild (w.nodes n).host }))
      (linkFieldsEq_upd w s _ (fun a => ⟨rfl, rfl, rfl, rfl, rfl⟩))
      (linkFieldsEq_upd _ n _ (fun a => ⟨rfl, rfl, rfl, rfl, rfl⟩))

theorem removeParentOp_linkFields (w : World) (s n : Nat) :
    LinkFieldsEq w (removeParentOp w s n) := by
  unfold removeParentOp
  split
  · exact linkFieldsEq_refl w
  · exact linkFieldsEq_trans
      (v := upd w s (fun a =>
        { a with hostToParent := alistErase a.hostToParent (w.nodes n).host }))
      (linkFieldsEq_upd w s _ (fun a => ⟨rfl, rfl, rfl, rfl, rfl⟩))
      (linkFieldsEq_upd _ n _ (fun a => ⟨rfl, rfl, rfl, rfl, rfl⟩))

theorem removeChildByHostOp_eq_of_none (w : World) (s : Nat) (h : Option String)
    (hz : alistGet (w.nodes s).hostToChild h = none) :
    removeChildByHostOp w s h = w := by
  unfold removeChildByHostOp
  rw [hz]

theorem removeChildByHostOp_eq_of_some (w : World) (s : Nat) (h : Option String) (z : Nat)
    (hz : alistGet (w.nodes s).hostToChild h = some z) :
    removeChildByHostOp w s h = removeChildOp w s z := by
  unfold removeChildByHostOp
  rw [hz]

theorem removeParentByHostOp_eq_of_none (w : World) (s : Nat) (h : Option String)
    (hz : alistGet (w.nodes s).hostToParent h = none) :
    removeParentByHostOp w s h = w := by
  unfold removeParentByHostOp
  rw [hz]

theorem removeParentByHostOp_eq_of_some (w : World) (s : Nat) (h : Option String) (z : Nat)
    (hz : alistGet (w.nodes s).hostToParent h = some z) :
    removeParentByHostOp w s h = removeParentOp w s z := by
  unfold removeParentByHostOp
  rw [hz]

theorem removeChildByHostOp_spec (w : World) (s : Nat) (h : Option String)
    (hw : NodeInv w) (hsi : s ∈ w.ids) :
    NodeInv (removeChildByHostOp w s h)
  ∧ (removeChildByHostOp w s h).ids = w.ids
  ∧ LinkFieldsEq w (removeChildByHostOp w s h)
  ∧ alistGet (((removeChildByHostOp w s h).nodes s).hostToChild) h = none
  ∧ (∀ k, k ≠ h → alistGet (((removeChildByHostOp w s h).nodes s).hostToChild) k =
        alistGet ((w.nodes s).hostToChild) k)
  ∧ ((removeChildByHostOp w s h).nodes s).hostToParent = (w.nodes s).hostToParent
  ∧ ∀ b, b ≠ s → alistGet ((w.nodes s).hostToChild) h ≠ some b →
      (removeChildByHostOp w s h).nodes b = w.nodes b := by
  cases hz : alistGet (w.nodes s).hostToChild h with
  | none =>
      rw [removeChildByHostOp_eq_of_none w s h hz]
      exact ⟨hw, rfl, linkFieldsEq_refl w, hz, fun k _ => rfl, rfl, fun b _ _ => rfl⟩
  | some z =>
      rw [removeChildByHostOp_eq_of_some w s h z hz]
      have hmem := alistGet_mem _ _ _ hz
      obtain ⟨hzid, hzhost, hzne, _⟩ := (hw s hsi).2.1 _ hmem
      have hzs : z ≠ s := by
        intro he
        rw [he] at hzhost
        exact hzne hzhost.symm
      have hsz : s ≠ z := fun he => hzs he.symm
      have hg : alistGet (w.nodes s).hostToChild (w.nodes z).host = some z := by
        rw [hzhost]
        exact hz
      have heq := removeChildOp_eq_upd w s z hg
      refine ⟨removeChildOp_preserves w s z hw hsi hzid, removeChildOp_ids w s z,
        removeChildOp_linkFields w s z, ?_, ?_, ?_, ?_⟩
      · rw [heq, upd_nodes_ne _ z _ s hsz, upd_nodes_same]
        show alistGet (alistErase ((w.nodes s).hostToChild) (w.nodes z).host) h = none
        rw [hzhost]
        exact alistGet_erase_self _ _ ((hw s hsi).2.2.2.1).1
      · intro k hk
        rw [heq, upd_nodes_ne _ z _ s hsz, upd_nodes_same]
        show alistGet (alistErase ((w.nodes s).hostToChild) (w.nodes z).host) k =
          alistGet ((w.nodes s).hostToChild) k
        rw [hzhost]
        exact alistGet_erase_other _ _ _ hk
      · rw [heq, upd_nodes_ne _ z _ s hsz, upd_nodes_same]
      · intro b hbs hbz
        have hbz' : b ≠ z := fun he => hbz (by rw [he])
        rw [heq, upd_nodes_ne _ z _ b hbz', upd_nodes_ne w s _ b hbs]

theorem removeParentByHostOp_spec (w : World) (s : Nat) (h : Option String)
    (hw : NodeInv w) (hsi : s ∈ w.ids) :
    NodeInv (removeParentByHostOp w s h)
  ∧ (removeParentByHostOp w s h).ids = w.ids
  ∧ LinkFieldsEq w (removeParentByHostOp w s h)
  ∧ alistGet (((removeParentByHostOp w s h).nodes s).hostToParent) h = none
  ∧ (∀ k, k ≠ h → alistGet (((removeParentByHostOp w s h).nodes s).hostToParent) k =
        alistGet ((w.nodes s).hostToParent) k)
  ∧ ((removeParentByHostOp w s h).nodes s).hostToChild = (w.nodes s).hostToChild
  ∧ ∀ b, b ≠ s → alistGet ((w.nodes s).hostToParent) h ≠ some b →
      (removeParentByHostOp w s h).nodes b = w.nodes b := by
  cases hz : alistGet (w.nodes s).hostToParent h with
  | none =>
      rw [removeParentByHostOp_eq_of_none w s h hz]
      exact ⟨hw, rfl, linkFieldsEq_refl w, hz, fun k _ => rfl, rfl, fun b _ _ => rfl⟩
  | some z =>
      rw [removeParentByHostOp_eq_of_some w s h z hz]
      have hmem := alistGet_mem _ _ _ hz
      obtain ⟨hzid, hzhost, hzne, _⟩ := (hw s hsi).2.2.1 _ hmem
      have hzs : z ≠ s := by
        intro he
        rw [he] at hzhost
        exact hzne hzhost.symm
      have hsz : s ≠ z := fun he => hzs he.symm
      have hg : alistGet (w.nodes s).hostToParent (w.nodes z).host = some z := by
        rw [hzhost]
        exact hz
      have heq := removeParentOp_eq_upd w s z hg
      refine ⟨removeParentOp_preserves w s z hw hsi hzid, removeParentOp_ids w s z,
        removeParentOp_linkFields w s z, ?_, ?_, ?_, ?_⟩
      · rw [heq, upd_nodes_ne _ z _ s hsz, upd_nodes_same]
        show alistGet (alistErase ((w.nodes s).hostToParent) (w.nodes z).host) h = none
        rw [hzhost]
        exact alistGet_erase_self _ _ ((hw s hsi).2.2.2.1).2
      · intro k hk
        rw [heq, upd_nodes_ne _ z _ s hsz, upd_nodes_same]
        show alistGet (alistErase ((w.nodes s).hostToParent) (w.nodes z).host) k =
          alistGet ((w.nodes s).hostToParent) k
        rw [hzhost]
        exact alistGet_erase_other _ _ _ hk
      · rw [heq, upd_nodes_ne _ z _ s hsz, upd_nodes_same]
      · intro b hbs hbz
        have hbz' : b ≠ z := fun he => hbz (by rw [he])
        rw [heq, upd_nodes_ne _ z _ b hbz', upd_nodes_ne w s _ b hbs]

theorem removeParentByHostOp_upd_comm (w : World) (n s : Nat) (h : Option String)
    (f : ANode → ANode) (hsn : s ≠ n)
    (hz2 : ∀ z, alistGet ((w.nodes n).hostToParent) h = some z → z ≠ s) :
    removeParentByHostOp (upd w s f) n h = upd (removeParentByHostOp w n h) s f := by
  have hns : n ≠ s := fun he => hsn he.symm
  have hpm_n : ((upd w s f).nodes n).hostToParent = (w.nodes n).hostToParent := by
    rw [upd_nodes_ne w s f n hns]
  cases hz : alistGet (w.nodes n).hostToParent h with
  | none =>
      rw [removeParentByHostOp_eq_of_none w n h hz,
          removeParentByHostOp_eq_of_none (upd w s f) n h (by rw [hpm_n]; exact hz)]
  | some z =>
      have hzs : z ≠ s := hz2 z hz
      have hsz : s ≠ z := fun he => hzs he.symm
      rw [removeParentByHostOp_eq_of_some w n h z hz,
          removeParentByHostOp_eq_of_some (upd w s f) n h z (by rw [hpm_n]; exact hz)]
      have hhost_z : ((upd w s f).nodes z).host = (w.nodes z).host := by
        rw [upd_nodes_ne w s f z hzs]
      by_cases hg : alistGet (w.nodes n).hostToParent (w.nodes z).host = some z
      · have hg' : alistGet ((upd w s f).nodes n).hostToParent
            ((upd w s f).nodes z).host = some z := by
          rw [hpm_n, hhost_z]
          exact hg
        have hhost_n : ((upd w s f).nodes n).host = (w.nodes n).host := by
          rw [upd_nodes_ne w s f n hns]
        rw [removeParentOp_eq_upd _ n z hg', removeParentOp_eq_upd w n z hg]
        rw [hhost_z, hhost_n]
        rw [upd_comm w s n f _ hsn, upd_comm _ s z f _ hsz]
      · have hg' : ¬(alistGet ((upd w s f).nodes n).hostToParent
            ((upd w s f).nodes z).host = some z) := by
          rw [hpm_n, hhost_z]
          exact hg
        rw [removeParentOp_noop _ n z hg', removeParentOp_noop w n z hg]

theorem removeChildByHostOp_upd_comm (w : World) (n s : Nat) (h : Option String)
    (f : ANode → ANode) (hsn : s ≠ n)
    (hz2 : ∀ z, alistGet ((w.nodes n).hostToChild) h = some z → z ≠ s) :
    removeChildByHostOp (upd w s f) n h = upd (removeChildByHostOp w n h) s f := by
  have hns : n ≠ s := fun he => hsn he.symm
  have hcm_n : ((upd w s f).nodes n).hostToChild = (w.nodes n).hostToChild := by
    rw [upd_nodes_ne w s f n hns]
  cases hz : alistGet (w.nodes n).hostToChild h with
  | none =>
      rw [removeChildByHostOp_eq_of_none w n h hz,
          removeChildByHostOp_eq_of_none (upd w s f) n h (by rw [hcm_n]; exact hz)]
  | some z =>
      have hzs : z ≠ s := hz2 z hz
      have hsz : s ≠ z := fun he => hzs he.symm
      rw [removeChildByHostOp_eq_of_some w n h z hz,
          removeChildByHostOp_eq_of_some (upd w s f) n h z (by rw [hcm_n]; exact hz)]
      have hhost_z : ((upd w s f).nodes z).host = (w.nodes z).host := by
        rw [upd_nodes_ne w s f z hzs]
      by_cases hg : alistGet (w.nodes n).hostToChild (w.nodes z).host = some z
      · have hg' : alistGet ((upd w s f).nodes n).hostToChild
            ((upd w s f).nodes z).host = some z := by
          rw [hcm_n, hhost_z]
          exact hg
        have hhost_n : ((upd w s f).nodes n).host = (w.nodes n).host := by
          rw [upd_nodes_ne w s f n hns]
        rw [removeChildOp_eq_upd _ n z hg', removeChildOp_eq_upd w n z hg]
        rw [hhost_z, hhost_n]
        rw [upd_comm w s n f _ hsn, upd_comm _ s z f _ hsz]
      · have hg' : ¬(alistGet ((upd w s f).nodes n).hostToChild
            ((upd w s f).nodes z).host = some z) := by
          rw [hcm_n, hhost_z]
          exact hg
        rw [removeChildOp_noop _ n z hg', removeChildOp_noop w n z hg]

theorem linkPair_preserves (w : World) (s n : Nat) (h1 h2 : Option String)
    (hw : NodeInv w) (hsi : s ∈ w.ids) (hni : n ∈ w.ids)
    (hsflag : ((w.nodes s).isHead || (w.nodes s).isTail) = false)
    (hnflag : ((w.nodes n).isHead || (w.nodes n).isTail) = false)
    (hhn : (w.nodes n).host = h1) (hhs : (w.nodes s).host = h2)
    (hne12 : h1 ≠ h2)
    (hcmf : alistGet (w.nodes s).hostToChild h1 = none)
    (hpmf : alistGet (w.nodes n).hostToParent h2 = none) :
    NodeInv (upd (upd w s (fun a =>
        { a with hostToChild := alistSet a.hostToChild h1 n }))
      n (fun a =>
        { a with hostToParent := alistSet a.hostToParent h2 s })) := by
  have hsn : s ≠ n := by
    intro he
    apply hne12
    rw [← hhn, ← hhs, he]
  have hns : n ≠ s := fun he => hsn he.symm
  set w' := upd (upd w s (fun a =>
      { a with hostToChild := alistSet a.hostToChild h1 n }))
    n (fun a =>
      { a with hostToParent := alistSet a.hostToParent h2 s }) with hw'
  have hcm : ∀ b, (w'.nodes b).hostToChild =
      if b = s then alistSet ((w.nodes s).hostToChild) h1 n
      else (w.nodes b).hostToChild := by
    intro b
    by_cases hb : b = n
    · rw [hb, if_neg hns, hw', upd_nodes_same, upd_nodes_ne w s _ n hns]
    · by_cases hb2 : b = s
      · rw [hb2, if_pos rfl, hw', upd_nodes_ne _ n _ s hsn, upd_nodes_same]
      · rw [if_neg hb2, hw', upd_nodes_ne _ n _ b hb, upd_nodes_ne w s _ b hb2]
  have hpm : ∀ b, (w'.nodes b).hostToParent =
      if b = n then alistSet ((w.nodes n).hostToParent) h2 s
      else (w.nodes b).hostToParent := by
    intro b
    by_cases hb : b = n
    · rw [hb, if_pos rfl, hw', upd_nodes_same, upd_nodes_ne w s _ n hns]
    · by_cases hb2 : b = s
      · rw [hb2, if_neg (hb2 ▸ hb), hw', upd_nodes_ne _ n _ s hsn, upd_nodes_same]
      · rw [if_neg hb, hw', upd_nodes_ne _ n _ b hb, upd_nodes_ne w s _ b hb2]
  have hlf : LinkFieldsEq w w' := by
    apply linkFieldsEq_trans (v := upd w s (fun a =>
      { a with hostToChild := alistSet a.hostToChild h1 n }))
    · exact linkFieldsEq_upd w s _ (fun a => ⟨rfl, rfl, rfl, rfl, rfl⟩)
    · exact linkFieldsEq_upd _ n _ (fun a => ⟨rfl, rfl, rfl, rfl, rfl⟩)
  intro a ha
  have ha' : a ∈ w.ids := ha
  obtain ⟨hNext, hChild, hParent, hKeys, hSent, hLink⟩ := hw a ha'
  refine ⟨nextOK_of_linkFieldsEq hlf a hNext, ?_, ?_, ?_, ?_,
    linkedOK_of_linkFieldsEq hlf a hLink⟩
  · intro p hp
    rw [hcm a] at hp
    by_cases has : a = s
    · rw [has, if_pos rfl] at hp
      rcases mem_alistSet_cases _ _ _ hcmf p hp with ⟨hpold, hpk⟩ | hpn
      · obtain ⟨pids, phost, pne, psym⟩ := (hw s hsi).2.1 p hpold
        have hp2n : p.2 ≠ n := by
          intro he
          rw [he] at phost
          rw [hhn] at phost
          exact hpk phost.symm
        refine ⟨pids, ?_, ?_, ?_⟩
        · rw [(hlf p.2).2.2.1]
          exact phost
        · rw [has, (hlf s).2.2.1]
          exact pne
        · rw [(hlf a).2.2.1, hpm p.2, if_neg hp2n, has]
          exact psym
      · rw [hpn]
        refine ⟨hni, ?_, ?_, ?_⟩
        · rw [(hlf n).2.2.1]
          exact hhn
        · rw [has, (hlf s).2.2.1, hhs]
          exact hne12
        · rw [(hlf a).2.2.1, hpm n, if_pos rfl, has, hhs]
          exact alistGet_set_self _ _ _
    · rw [if_neg has] at hp
      obtain ⟨pids, phost, pne, psym⟩ := hChild p hp
      refine ⟨pids, ?_, ?_, ?_⟩
      · rw [(hlf p.2).2.2.1]
        exact phost
      · rw [(hlf a).2.2.1]
        exact pne
      · rw [(hlf a).2.2.1, hpm p.2]
        by_cases hp2 : p.2 = n
        · rw [if_pos hp2]
          have hane : (w.nodes a).host ≠ h2 := by
            intro he
            rw [hp2] at psym
            rw [he] at psym
            rw [psym] at hpmf
            exact Option.noConfusion hpmf
          rw [alistGet_set_other _ _ _ _ hane]
          rw [hp2] at psym
          exact psym
        · rw [if_neg hp2]
          exact psym
  · intro p hp
    rw [hpm a] at hp
    by_cases han : a = n
    · rw [han, if_pos rfl] at hp
      rcases mem_alistSet_cases _ _ _ hpmf p hp with ⟨hpold, hpk⟩ | hps
      · obtain ⟨pids, phost, pne, psym⟩ := (hw n hni).2.2.1 p hpold
        have hp2s : p.2 ≠ s := by
          intro he
          rw [he] at phost
          rw [hhs] at phost
          exact hpk phost.symm
        refine ⟨pids, ?_, ?_, ?_⟩
        · rw [(hlf p.2).2.2.1]
          exact phost
        · rw [han, (hlf n).2.2.1]
          exact pne
        · rw [(hlf a).2.2.1, hcm p.2, if_neg hp2s, han]
          exact psym
      · rw [hps]
        refine ⟨hsi, ?_, ?_, ?_⟩
        · rw [(hlf s).2.2.1]
          exact hhs
        · rw [han, (hlf n).2.2.1, hhn]
          exact fun he => hne12 he.symm
        · rw [(hlf a).2.2.1, hcm s, if_pos rfl, han, hhn]
          exact alistGet_set_self _ _ _
    · rw [if_neg han] at hp
      obtain ⟨pids, phost, pne, psym⟩ := hParent p hp
      refine ⟨pids, ?_, ?_, ?_⟩
      · rw [(hlf p.2).2.2.1]
        exact phost
      · rw [(hlf a).2.2.1]
        exact pne
      · rw [(hlf a).2.2.1, hcm p.2]
        by_cases hp2 : p.2 = s
        · rw [if_pos hp2]
          have hane : (w.nodes a).host ≠ h1 := by
            intro he
            rw [hp2] at psym
            rw [he] at psym
            rw [psym] at hcmf
            exact Option.noConfusion hcmf
          rw [alistGet_set_other _ _ _ _ hane]
          rw [hp2] at psym
          exact psym
        · rw [if_neg hp2]
          exact psym
  · constructor
    · rw [hcm a]
      by_cases has : a = s
      · rw [if_pos has]
        exact keys_alistSet_of_none _ _ _ (has ▸ hKeys.1) (has ▸ hcmf)
      · rw [if_neg has]
        exact hKeys.1
    · rw [hpm a]
      by_cases han : a = n
      · rw [if_pos han]
        exact keys_alistSet_of_none _ _ _ (han ▸ hKeys.2) (han ▸ hpmf)
      · rw [if_neg han]
        exact hKeys.2
  · intro hflag
    have hflag' : ((w.nodes a).isHead || (w.nodes a).isTail) = true := by
      rw [← (hlf a).2.2.2.1, ← (hlf a).2.2.2.2]
      exact hflag
    obtain ⟨hc0, hp0⟩ := hSent hflag'
    constructor
    · rw [hcm a]
      by_cases has : a = s
      · exfalso
        rw [has] at hflag'
        rw [hsflag] at hflag'
        exact Bool.false_ne_true hflag'
      · rw [if_neg has]
        exact hc0
    · rw [hpm a]
      by_cases han : a = n
      · exfalso
        rw [han] at hflag'
        rw [hnflag] at hflag'
        exact Bool.false_ne_true hflag'
      · rw [if_neg han]
        exact hp0

theorem addChildOp_preserves (w : World) (s n : Nat) (hw : NodeInv w)
    (hsi : s ∈ w.ids) (hni : n ∈ w.ids)
    (hsflag : ((w.nodes s).isHead || (w.nodes s).isTail) = false) :
    NodeInv (addChildOp w s n) := by
  unfold addChildOp
  by_cases hnsent : ((w.nodes n).isHead || (w.nodes n).isTail) = true
  · rw [if_pos hnsent]
    exact hw
  · rw [if_neg hnsent]
    by_cases hhosteq : (w.nodes n).host = (w.nodes s).host
    · rw [if_pos hhosteq]
      exact hw
    · rw [if_neg hhosteq]
      by_cases hhave : alistGet (w.nodes s).hostToChild (w.nodes n).host = some n
      · rw [if_pos hhave]
        exact hw
      · rw [if_neg hhave]
        have hsn : s ≠ n := by
          intro he
          exact hhosteq (by rw [he])
        have hns : n ≠ s := fun he => hsn he.symm
        obtain ⟨hwA, hidsA, hlfA, hgetA, _, _, hotherA⟩ :=
          removeChildByHostOp_spec w s ((w.nodes n).host) hw hsi
        have hnA : (removeChildByHostOp w s ((w.nodes n).host)).nodes n = w.nodes n :=
          hotherA n hns hhave
        have hz2 : ∀ z, alistGet
            (((removeChildByHostOp w s ((w.nodes n).host)).nodes n).hostToParent)
            ((w.nodes s).host) = some z → z ≠ s := by
          intro z hzeq he
          rw [he, hnA] at hzeq
          have hmem := alistGet_mem _ _ _ hzeq
          obtain ⟨_, _, _, psym⟩ := (hw n hni).2.2.1 _ hmem
          exact hhave psym
        rw [removeParentByHostOp_upd_comm (removeChildByHostOp w s ((w.nodes n).host))
            n s ((w.nodes s).host) _ hsn hz2]
        obtain ⟨hwC, hidsC, hlfC, hgetC, _, _, hotherC⟩ :=
          removeParentByHostOp_spec (removeChildByHostOp w s ((w.nodes n).host)) n
            ((w.nodes s).host) hwA (by rw [hidsA]; exact hni)
        have hlfAC := linkFieldsEq_trans hlfA hlfC
        have hsC : (removeParentByHostOp (removeChildByHostOp w s ((w.nodes n).host)) n
            ((w.nodes s).host)).nodes s =
            (removeChildByHostOp w s ((w.nodes n).host)).nodes s := by
          apply hotherC s hsn
          intro habs
          exact (hz2 s habs) rfl
        apply linkPair_preserves _ s n ((w.nodes n).host) ((w.nodes s).host) hwC
        · rw [hidsC, hidsA]
          exact hsi
        · rw [hidsC, hidsA]
          exact hni
        · rw [(hlfAC s).2.2.2.1, (hlfAC s).2.2.2.2]
          exact hsflag
        · rw [(hlfAC n).2.2.2.1, (hlfAC n).2.2.2.2]
          exact Bool.eq_false_iff.mpr hnsent
        · exact (hlfAC n).2.2.1
        · exact (hlfAC s).2.2.1
        · exact hhosteq
        · rw [hsC]
          exact hgetA
        · exact hgetC

theorem addParentOp_preserves (w : World) (s n : Nat) (hw : NodeInv w)
    (hsi : s ∈ w.ids) (hni : n ∈ w.ids)
    (hsflag : ((w.nodes s).isHead || (w.nodes s).isTail) = false) :
    NodeInv (addParentOp w s n) := by
  unfold addParentOp
  by_cases hnsent : ((w.nodes n).isHead || (w.nodes n).isTail) = true
  · rw [if_pos hnsent]
    exact hw
  · rw [if_neg hnsent]
    by_cases hhosteq : (w.nodes n).host = (w.nodes s).host
    · rw [if_pos hhosteq]
      exact hw
    · rw [if_neg hhosteq]
      by_cases hhave : alistGet (w.nodes s).hostToParent (w.nodes n).host = some n
      · rw [if_pos hhave]
        exact hw
      · rw [if_neg hhave]
        have hsn : s ≠ n := by
          intro he
          exact hhosteq (by rw [he])
        have hns : n ≠ s := fun he => hsn he.symm
        obtain ⟨hwA, hidsA, hlfA, hgetA, _, _, hotherA⟩ :=
          removeParentByHostOp_spec w s ((w.nodes n).host) hw hsi
        have hnA : (removeParentByHostOp w s ((w.nodes n).host)).nodes n = w.nodes n :=
          hotherA n hns hhave
        have hz2 : ∀ z, alistGet
            (((removeParentByHostOp w s ((w.nodes n).host)).nodes n).hostToChild)
            ((w.nodes s).host) = some z → z ≠ s := by
          intro z hzeq he
          rw [he, hnA] at hzeq
          have hmem := alistGet_mem _ _ _ hzeq
          obtain ⟨_, _, _, psym⟩ := (hw n hni).2.1 _ hmem
          exact hhave psym
        rw [removeChildByHostOp_upd_comm (removeParentByHostOp w s ((w.nodes n).host))
            n s ((w.nodes s).host) _ hsn hz2]
        obtain ⟨hwC, hidsC, hlfC, hgetC, _, _, hotherC⟩ :=
          removeChildByHostOp_spec (removeParentByHostOp w s ((w.nodes n).host)) n
            ((w.nodes s).host) hwA (by rw [hidsA]; exact hni)
        have hlfAC := linkFieldsEq_trans hlfA hlfC
        have hsC : (removeChildByHostOp (removeParentByHostOp w s ((w.nodes n).host)) n
            ((w.nodes s).host)).nodes s =
            (removeParentByHostOp w s ((w.nodes n).host)).nodes s := by
          apply hotherC s hsn
          intro habs
          exact (hz2 s habs) rfl
        rw [upd_comm _ s n _ _ hsn]
        apply linkPair_preserves _ n s ((w.nodes s).host) ((w.nodes n).host) hwC
        · rw [hidsC, hidsA]
          exact hni
        · rw [hidsC, hidsA]
          exact hsi
        · rw [(hlfAC n).2.2.2.1, (hlfAC n).2.2.2.2]
          exact Bool.eq_false_iff.mpr hnsent
        · rw [(hlfAC s).2.2.2.1, (hlfAC s).2.2.2.2]
          exact hsflag
        · exact (hlfAC s).2.2.1
        · exact (hlfAC n).2.2.1
        · exact fun he => hhosteq he.symm
        · rw [hgetC]
        · rw [hsC]
          exact hgetA

theorem famvals_nodup (m : List (Option String × Nat)) (w : World)
    (hkeys : (m.map Prod.fst).Nodup) (hhost : ∀ p ∈ m, (w.nodes p.2).host = p.1) :
    (m.map Prod.snd).Nodup := by
  induction m with
  | nil => simp
  | cons p rest ih =>
      simp only [List.map_cons, List.nodup_cons] at hkeys ⊢
      obtain ⟨hk, hkeys'⟩ := hkeys
      refine ⟨?_, ih hkeys' (fun q hq => hhost q (List.mem_cons_of_mem p hq))⟩
      intro hv
      rcases List.mem_map.mp hv with ⟨q, hq, hqv⟩
      have h1 := hhost q (List.mem_cons_of_mem p hq)
      have h2 := hhost p (List.mem_cons_self p rest)
      rw [hqv] at h1
      rw [h2] at h1
      exact hk (List.mem_map.mpr ⟨q, hq, h1.symm⟩)


theorem fold_eraseChild_nodes (es : List (Option String × Nat)) (w : World) (x : Nat)
    (hne : ∀ p ∈ es, p.2 ≠ x) (hvals : (es.map Prod.snd).Nodup) :
    ∀ b, ((es.foldl (severChildStep x) w).nodes b) =
      if b ∈ es.map Prod.snd then
        { w.nodes b with hostToChild :=
            (alistErase ((w.nodes b).hostToChild) ((w.nodes x).host)) }
      else w.nodes b := by
  induction es generalizing w with
  | nil =>
      intro b
      simp
  | cons q rest ih =>
      intro b
      have hqx : q.2 ≠ x := hne q (List.mem_cons_self q rest)
      have hxq : x ≠ q.2 := fun he => hqx he.symm
      simp only [List.foldl_cons, List.map_cons, List.nodup_cons] at hvals ⊢
      obtain ⟨hqv, hvals2⟩ := hvals
      have hstep : severChildStep x w q = upd w q.2 (fun a =>
          { a with hostToChild := alistErase a.hostToChild ((w.nodes x).host) }) := rfl
      rw [hstep]
      have ihw := ih (upd w q.2 (fun a =>
          { a with hostToChild := alistErase a.hostToChild ((w.nodes x).host) }))
        (fun p hp => hne p (List.mem_cons_of_mem q hp)) hvals2
      have hkeyeq : ((upd w q.2 (fun a =>
          { a with hostToChild := alistErase a.hostToChild ((w.nodes x).host) })).nodes x).host =
          (w.nodes x).host := by
        rw [upd_nodes_ne w q.2 _ x hxq]
      by_cases hbq : b = q.2
      · rw [hbq, ihw q.2, if_neg ?hm, if_pos (List.mem_cons_self _ _), upd_nodes_same]
        case hm =>
          intro hmem
          exact hqv hmem
      · rw [ihw b]
        by_cases hbin : b ∈ rest.map Prod.snd
        · rw [if_pos hbin, if_pos (List.mem_cons_of_mem _ hbin), hkeyeq,
              upd_nodes_ne w q.2 _ b hbq]
        · rw [if_neg hbin, if_neg ?hnot, upd_nodes_ne w q.2 _ b hbq]
          case hnot =>
            intro hmem
            rcases List.mem_cons.mp hmem with h1 | h1
            · exact hbq h1
            · exact hbin h1

theorem fold_eraseParent_nodes (es : List (Option String × Nat)) (w : World) (x : Nat)
    (hne : ∀ p ∈ es, p.2 ≠ x) (hvals : (es.map Prod.snd).Nodup) :
    ∀ b, ((es.foldl (severParentStep x) w).nodes b) =
      if b ∈ es.map Prod.snd then
        { w.nodes b with hostToParent :=
            (alistErase ((w.nodes b).hostToParent) ((w.nodes x).host)) }
      else w.nodes b := by
  induction es generalizing w with
  | nil =>
      intro b
      simp
  | cons q rest ih =>
      intro b
      have hqx : q.2 ≠ x := hne q (List.mem_cons_self q rest)
      have hxq : x ≠ q.2 := fun he => hqx he.symm
      simp only [List.foldl_cons, List.map_cons, List.nodup_cons] at hvals ⊢
      obtain ⟨hqv, hvals2⟩ := hvals
      have hstep : severParentStep x w q = upd w q.2 (fun a =>
          { a with hostToParent := alistErase a.hostToParent ((w.nodes x).host) }) := rfl
      rw [hstep]
      have ihw := ih (upd w q.2 (fun a =>
          { a with hostToParent := alistErase a.hostToParent ((w.nodes x).host) }))
        (fun p hp => hne p (List.mem_cons_of_mem q hp)) hvals2
      have hkeyeq : ((upd w q.2 (fun a =>
          { a with hostToParent := alistErase a.hostToParent ((w.nodes x).host) })).nodes x).host =
          (w.nodes x).host := by
        rw [upd_nodes_ne w q.2 _ x hxq]
      by_cases hbq : b = q.2
      · rw [hbq, ihw q.2, if_neg ?hm2, if_pos (List.mem_cons_self _ _), upd_nodes_same]
        case hm2 =>
          intro hmem
          exact hqv hmem
      · rw [ihw b]
        by_cases hbin : b ∈ rest.map Prod.snd
        · rw [if_pos hbin, if_pos (List.mem_cons_of_mem _ hbin), hkeyeq,
              upd_nodes_ne w q.2 _ b hbq]
        · rw [if_neg hbin, if_neg ?hnot2, upd_nodes_ne w q.2 _ b hbq]
          case hnot2 =>
            intro hmem
            rcases List.mem_cons.mp hmem with h1 | h1
            · exact hbq h1
            · exact hbin h1

/-- The splice part of remove: link prev to next, then next to prev, then
null the removed node's own links. -/
def removeStage3 (w : World) (x p n : Nat) : World :=
  upd (upd (upd w p (fun a => { a with next := some n }))
    n (fun a => { a with prev := some p }))
    x (fun a => { a with prev := none, next := none })

/-- The full mutation sequence of a successful remove on a linked node. -/
def removeStages (w : World) (x p n : Nat) : World :=
  let w3 := removeStage3 w x p n
  let w4 := ((w3.nodes x).hostToParent).foldl (severChildStep x) w3
  let w5 := ((w4.nodes x).hostToChild).foldl (severParentStep x) w4
  upd (upd w5 x (fun a => { a with hostToChild := [], hostToParent := [] }))
    x (fun a => { a with host := none })

/-- The heap produced by a successful remove, described pointwise: the
removed node is detached, its family maps emptied and its host nulled; its
neighbours are spliced together; every node that held it as parent loses the
child entry under its host key, and every node that held it as child loses
the parent entry under its host key. -/
def removeResult (w : World) (x p n : Nat) : World :=
  ⟨w.ids, fun b =>
    if b = x then
      { w.nodes x with
        prev := none,
        next := none,
        hostToChild := [],
        hostToParent := [],
        host := none }
    else
      { w.nodes b with
        next := if b = p then some n else (w.nodes b).next,
        prev := if b = n then some p else (w.nodes b).prev,
        hostToChild :=
          if b ∈ ((w.nodes x).hostToParent).map Prod.snd then
            alistErase ((w.nodes b).hostToChild) ((w.nodes x).host)
          else (w.nodes b).hostToChild,
        hostToParent :=
          if b ∈ ((w.nodes x).hostToChild).map Prod.snd then
            alistErase ((w.nodes b).hostToParent) ((w.nodes x).host)
          else (w.nodes b).hostToParent }⟩

theorem removeOp_eq_stages (w : World) (x p n : Nat)
    (hflag : ((w.nodes x).isHead || (w.nodes x).isTail) = false)
    (hp : (w.nodes x).prev = some p) (hn : (w.nodes x).next = some n) :
    removeOp w x = some (removeStages w x p n) := by
  unfold removeOp
  rw [if_neg ?hc, hp, hn]
  case hc => rw [hflag]; exact Bool.false_ne_true
  rfl

theorem fold_severChild_ids (x : Nat) (es : List (Option String × Nat)) (w : World) :
    (es.foldl (severChildStep x) w).ids = w.ids := by
  induction es generalizing w with
  | nil => rfl
  | cons q rest ih =>
      rw [List.foldl_cons, ih]
      rfl

theorem fold_severParent_ids (x : Nat) (es : List (Option String × Nat)) (w : World) :
    (es.foldl (severParentStep x) w).ids = w.ids := by
  induction es generalizing w with
  | nil => rfl
  | cons q rest ih =>
      rw [List.foldl_cons, ih]
      rfl

theorem removeStage3_nodes (w : World) (x p n : Nat) :
    (∀ b, b ≠ x → (removeStage3 w x p n).nodes b =
      { w.nodes b with
        next := if b = p then some n else (w.nodes b).next,
        prev := if b = n then some p else (w.nodes b).prev })
  ∧ (removeStage3 w x p n).nodes x = { w.nodes x with prev := none, next := none }
  ∧ (removeStage3 w x p n).ids = w.ids := by
  refine ⟨?_, ?_, rfl⟩
  · intro b hbx
    unfold removeStage3
    rw [upd_nodes_ne _ x _ b hbx]
    by_cases hbn : b = n
    · rw [hbn, upd_nodes_same, if_pos rfl]
      by_cases hnp : n = p
      · rw [if_pos hnp, hnp, upd_nodes_same]
      · rw [if_neg hnp, upd_nodes_ne _ p _ n hnp]
    · rw [upd_nodes_ne _ n _ b hbn, if_neg hbn]
      by_cases hbp : b = p
      · rw [hbp, upd_nodes_same, if_pos rfl]
      · rw [upd_nodes_ne _ p _ b hbp, if_neg hbp]
  · unfold removeStage3
    rw [upd_nodes_same]
    by_cases hxn : x = n
    · rw [hxn, upd_nodes_same]
      by_cases hnp : n = p
      · rw [hnp, upd_nodes_same]
      · rw [upd_nodes_ne _ p _ n hnp]
    · rw [upd_nodes_ne _ n _ x hxn]
      by_cases hxp : x = p
      · rw [hxp, upd_nodes_same]
      · rw [upd_nodes_ne _ p _ x hxp]

theorem removeStages_eq (w : World) (x p n : Nat)
    (hneP : ∀ q ∈ (w.nodes x).hostToParent, q.2 ≠ x)
    (hneC : ∀ q ∈ (w.nodes x).hostToChild, q.2 ≠ x)
    (hvalsP : (((w.nodes x).hostToParent).map Prod.snd).Nodup)
    (hvalsC : (((w.nodes x).hostToChild).map Prod.snd).Nodup) :
    removeStages w x p n = removeResult w x p n := by
  obtain ⟨h3o, h3x, h3i⟩ := removeStage3_nodes w x p n
  have hxP : x ∉ ((w.nodes x).hostToParent).map Prod.snd := by
    intro hmem
    rcases List.mem_map.mp hmem with ⟨q, hq, hqx⟩
    exact hneP q hq hqx
  have hxC : x ∉ ((w.nodes x).hostToChild).map Prod.snd := by
    intro hmem
    rcases List.mem_map.mp hmem with ⟨q, hq, hqx⟩
    exact hneC q hq hqx
  have h3xP : ((removeStage3 w x p n).nodes x).hostToParent = (w.nodes x).hostToParent := by
    rw [h3x]
  have h3xC : ((removeStage3 w x p n).nodes x).hostToChild = (w.nodes x).hostToChild := by
    rw [h3x]
  have h3xh : ((removeStage3 w x p n).nodes x).host = (w.nodes x).host := by
    rw [h3x]
  have hW4 := fold_eraseChild_nodes ((w.nodes x).hostToParent) (removeStage3 w x p n) x
    hneP hvalsP
  have hW4x : (((w.nodes x).hostToParent).foldl (severChildStep x)
      (removeStage3 w x p n)).nodes x = (removeStage3 w x p n).nodes x := by
    rw [hW4 x, if_neg hxP]
  have hW4xC : ((((w.nodes x).hostToParent).foldl (severChildStep x)
      (removeStage3 w x p n)).nodes x).hostToChild = (w.nodes x).hostToChild := by
    rw [hW4x, h3xC]
  have hW4xh : ((((w.nodes x).hostToParent).foldl (severChildStep x)
      (removeStage3 w x p n)).nodes x).host = (w.nodes x).host := by
    rw [hW4x, h3xh]
  simp only [removeStages]
  rw [h3xP, hW4xC]
  have hW5 := fold_eraseParent_nodes ((w.nodes x).hostToChild)
    (((w.nodes x).hostToParent).foldl (severChildStep x) (removeStage3 w x p n)) x
    hneC hvalsC
  refine World.ext' _ _ ?_ ?_
  · rw [upd_ids, upd_ids, fold_severParent_ids, fold_severChild_ids, h3i]
    rfl
  · intro b
    by_cases hbx : b = x
    · subst hbx
      rw [upd_nodes_same, upd_nodes_same, hW5 b, if_neg hxC, hW4x, h3x]
      simp only [removeResult]
      rw [if_pos trivial]
    · rw [upd_nodes_ne _ x _ b hbx, upd_nodes_ne _ x _ b hbx]
      rw [hW5 b, hW4xh, hW4 b, h3xh, h3o b hbx]
      simp only [removeResult]
      rw [if_neg hbx]
      by_cases hbC : b ∈ ((w.nodes x).hostToChild).map Prod.snd
      · by_cases hbP : b ∈ ((w.nodes x).hostToParent).map Prod.snd
        · simp only [if_pos hbC, if_pos hbP]
        · simp only [if_pos hbC, if_neg hbP]
      · by_cases hbP : b ∈ ((w.nodes x).hostToParent).map Prod.snd
        · simp only [if_neg hbC, if_pos hbP]
        · simp only [if_neg hbC, if_neg hbP]

theorem removeResult_node_x (w : World) (x p n : Nat) :
    (removeResult w x p n).nodes x =
      { w.nodes x with
        prev := none,
        next := none,
        hostToChild := [],
        hostToParent := [],
        host := none } := by
  simp only [removeResult]
  rw [if_pos trivial]

theorem removeResult_fields (w : World) (x p n : Nat) (b : Nat) (hbx : b ≠ x) :
    (removeResult w x p n).nodes b =
      { w.nodes b with
        next := if b = p then some n else (w.nodes b).next,
        prev := if b = n then some p else (w.nodes b).prev,
        hostToChild :=
          if b ∈ ((w.nodes x).hostToParent).map Prod.snd then
            alistErase ((w.nodes b).hostToChild) ((w.nodes x).host)
          else (w.nodes b).hostToChild,
        hostToParent :=
          if b ∈ ((w.nodes x).hostToChild).map Prod.snd then
            alistErase ((w.nodes b).hostToParent) ((w.nodes x).host)
          else (w.nodes b).hostToParent } := by
  simp only [removeResult]
  rw [if_neg hbx]

theorem removeResult_next (w : World) (x p n b : Nat) (hbx : b ≠ x) :
    ((removeResult w x p n).nodes b).next =
      if b = p then some n else (w.nodes b).next := by
  rw [removeResult_fields w x p n b hbx]

theorem removeResult_prev (w : World) (x p n b : Nat) (hbx : b ≠ x) :
    ((removeResult w x p n).nodes b).prev =
      if b = n then some p else (w.nodes b).prev := by
  rw [removeResult_fields w x p n b hbx]

theorem removeResult_child (w : World) (x p n b : Nat) (hbx : b ≠ x) :
    ((removeResult w x p n).nodes b).hostToChild =
      if b ∈ ((w.nodes x).hostToParent).map Prod.snd then
        alistErase ((w.nodes b).hostToChild) ((w.nodes x).host)
      else (w.nodes b).hostToChild := by
  rw [removeResult_fields w x p n b hbx]

theorem removeResult_parent (w : World) (x p n b : Nat) (hbx : b ≠ x) :
    ((removeResult w x p n).nodes b).hostToParent =
      if b ∈ ((w.nodes x).hostToChild).map Prod.snd then
        alistErase ((w.nodes b).hostToParent) ((w.nodes x).host)
      else (w.nodes b).hostToParent := by
  rw [removeResult_fields w x p n b hbx]

theorem removeResult_host (w : World) (x p n b : Nat) (hbx : b ≠ x) :
    ((removeResult w x p n).nodes b).host = (w.nodes b).host := by
  rw [removeResult_fields w x p n b hbx]

theorem removeResult_isHead (w : World) (x p n b : Nat) (hbx : b ≠ x) :
    ((removeResult w x p n).nodes b).isHead = (w.nodes b).isHead := by
  rw [removeResult_fields w x p n b hbx]

theorem removeResult_isTail (w : World) (x p n b : Nat) (hbx : b ≠ x) :
    ((removeResult w x p n).nodes b).isTail = (w.nodes b).isTail := by
  rw [removeResult_fields w x p n b hbx]

theorem removeResult_inv (w : World) (x p n : Nat) (hw : NodeInv w) (hx : x ∈ w.ids)
    (hflag : ((w.nodes x).isHead || (w.nodes x).isTail) = false)
    (hp : (w.nodes x).prev = some p) (hn : (w.nodes x).next = some n) :
    NodeInv (removeResult w x p n) := by
  obtain ⟨hnx, hcx, hpx, hkx, hsx, hlx⟩ := hw x hx
  have hnprev : (w.nodes n).prev = some x := hnx.1 n (by rw [Option.mem_def]; exact hn)
  have hpnext : (w.nodes p).next = some x := hnx.2 p (by rw [Option.mem_def]; exact hp)
  have hpx_to_nx : p = x → n = x := by
    intro he
    rw [he] at hpnext
    rw [hpnext] at hn
    exact (Option.some.inj hn).symm
  have hnx_to_px : n = x → p = x := by
    intro he
    rw [he] at hnprev
    rw [hnprev] at hp
    exact (Option.some.inj hp).symm
  have hrefP : ∀ b ∈ w.ids, ∀ q ∈ (w.nodes b).hostToChild, q.2 = x →
      b ∈ ((w.nodes x).hostToParent).map Prod.snd := by
    intro b hb q hq hqx
    have h4 := ((hw b hb).2.1 q hq).2.2.2
    rw [hqx] at h4
    exact List.mem_map.mpr ⟨((w.nodes b).host, b), alistGet_mem _ _ _ h4, rfl⟩
  have hrefC : ∀ b ∈ w.ids, ∀ q ∈ (w.nodes b).hostToParent, q.2 = x →
      b ∈ ((w.nodes x).hostToChild).map Prod.snd := by
    intro b hb q hq hqx
    have h4 := ((hw b hb).2.2.1 q hq).2.2.2
    rw [hqx] at h4
    exact List.mem_map.mpr ⟨((w.nodes b).host, b), alistGet_mem _ _ _ h4, rfl⟩
  have hPmem : ∀ b, b ∈ ((w.nodes x).hostToParent).map Prod.snd →
      alistGet (w.nodes b).hostToChild ((w.nodes x).host) = some x := by
    intro b hb
    rcases List.mem_map.mp hb with ⟨q, hq, hqb⟩
    have h5 := (hpx q hq).2.2.2
    rw [hqb] at h5
    exact h5
  have hCmem : ∀ b, b ∈ ((w.nodes x).hostToChild).map Prod.snd →
      alistGet (w.nodes b).hostToParent ((w.nodes x).host) = some x := by
    intro b hb
    rcases List.mem_map.mp hb with ⟨q, hq, hqb⟩
    have h5 := (hcx q hq).2.2.2
    rw [hqb] at h5
    exact h5
  intro a ha
  have haw : a ∈ w.ids := ha
  by_cases hax : a = x
  · subst hax
    refine ⟨⟨?_, ?_⟩, ?_, ?_, ⟨?_, ?_⟩, ?_, ?_⟩
    · intro b hb
      rw [Option.mem_def, removeResult_node_x] at hb
      exact Option.noConfusion hb
    · intro b hb
      rw [Option.mem_def, removeResult_node_x] at hb
      exact Option.noConfusion hb
    · intro q hq
      rw [removeResult_node_x] at hq
      exact absurd hq (List.not_mem_nil q)
    · intro q hq
      rw [removeResult_node_x] at hq
      exact absurd hq (List.not_mem_nil q)
    · rw [removeResult_node_x]
      exact List.nodup_nil
    · rw [removeResult_node_x]
      exact List.nodup_nil
    · intro hflag2
      rw [removeResult_node_x]
      exact ⟨rfl, rfl⟩
    · intro hflag2
      rw [removeResult_node_x]
  · obtain ⟨hna, hca, hpa, hka, hsa, hla⟩ := hw a haw
    refine ⟨⟨?_, ?_⟩, ?_, ?_, ⟨?_, ?_⟩, ?_, ?_⟩
    · intro b hb
      rw [Option.mem_def, removeResult_next w x p n a hax] at hb
      by_cases hap : a = p
      · rw [if_pos hap] at hb
        have hbn : b = n := (Option.some.inj hb).symm
        have hnxne : n ≠ x := by
          intro he
          exact hax (hap.trans (hnx_to_px he))
        rw [hbn, removeResult_prev w x p n n hnxne, if_pos rfl, hap]
      · rw [if_neg hap] at hb
        have hbprev : (w.nodes b).prev = some a := hna.1 b (by rw [Option.mem_def]; exact hb)
        have hbx2 : b ≠ x := by
          intro he
          rw [he] at hbprev
          rw [hbprev] at hp
          exact hap (Option.some.inj hp)
        have hbn2 : b ≠ n := by
          intro he
          rw [he] at hbprev
          rw [hnprev] at hbprev
          exact hax (Option.some.inj hbprev).symm
        rw [removeResult_prev w x p n b hbx2, if_neg hbn2]
        exact hbprev
    · intro b hb
      rw [Option.mem_def, removeResult_prev w x p n a hax] at hb
      by_cases han : a = n
      · rw [if_pos han] at hb
        have hbp : b = p := (Option.some.inj hb).symm
        have hpxne : p ≠ x := by
          intro he
          exact hax (han.trans (hpx_to_nx he))
        rw [hbp, removeResult_next w x p n p hpxne, if_pos rfl, han]
      · rw [if_neg han] at hb
        have hbnext : (w.nodes b).next = some a := hna.2 b (by rw [Option.mem_def]; exact hb)
        have hbx2 : b ≠ x := by
          intro he
          rw [he] at hbnext
          rw [hbnext] at hn
          exact han (Option.some.inj hn)
        have hbp2 : b ≠ p := by
          intro he
          rw [he] at hbnext
          rw [hpnext] at hbnext
          exact hax (Option.some.inj hbnext).symm
        rw [removeResult_next w x p n b hbx2, if_neg hbp2]
        exact hbnext
    · intro q hq
      rw [removeResult_child w x p n a hax] at hq
      have hqorig : q ∈ (w.nodes a).hostToChild ∧ q.2 ≠ x := by
        by_cases haP : a ∈ ((w.nodes x).hostToParent).map Prod.snd
        · rw [if_pos haP] at hq
          refine ⟨mem_alistErase _ _ _ hq, ?_⟩
          intro he
          have hkey := mem_alistErase_key _ _ hka.1 q hq
          have hqh := (hca q (mem_alistErase _ _ _ hq)).2.1
          rw [he] at hqh
          exact hkey hqh.symm
        · rw [if_neg haP] at hq
          refine ⟨hq, ?_⟩
          intro he
          exact haP (hrefP a haw q hq he)
      obtain ⟨hq0, hq2x⟩ := hqorig
      obtain ⟨hqid, hqhost, hqne, hqsym⟩ := hca q hq0
      refine ⟨hqid, ?_, ?_, ?_⟩
      · rw [removeResult_host w x p n q.2 hq2x]
        exact hqhost
      · rw [removeResult_host w x p n a hax]
        exact hqne
      · rw [removeResult_host w x p n a hax, removeResult_parent w x p n q.2 hq2x]
        by_cases hqC : q.2 ∈ ((w.nodes x).hostToChild).map Prod.snd
        · rw [if_pos hqC]
          have hhne : (w.nodes a).host ≠ (w.nodes x).host := by
            intro he
            have h5 := hCmem q.2 hqC
            rw [← he] at h5
            rw [hqsym] at h5
            exact hax (Option.some.inj h5)
          rw [alistGet_erase_other _ _ _ hhne]
          exact hqsym
        · rw [if_neg hqC]
          exact hqsym
    · intro q hq
      rw [removeResult_parent w x p n a hax] at hq
      have hqorig : q ∈ (w.nodes a).hostToParent ∧ q.2 ≠ x := by
        by_cases haC : a ∈ ((w.nodes x).hostToChild).map Prod.snd
        · rw [if_pos haC] at hq
          refine ⟨mem_alistErase _ _ _ hq, ?_⟩
          intro he
          have hkey := mem_alistErase_key _ _ hka.2 q hq
          have hqh := (hpa q (mem_alistErase _ _ _ hq)).2.1
          rw [he] at hqh
          exact hkey hqh.symm
        · rw [if_neg haC] at hq
          refine ⟨hq, ?_⟩
          intro he
          exact haC (hrefC a haw q hq he)
      obtain ⟨hq0, hq2x⟩ := hqorig
      obtain ⟨hqid, hqhost, hqne, hqsym⟩ := hpa q hq0
      refine ⟨hqid, ?_, ?_, ?_⟩
      · rw [removeResult_host w x p n q.2 hq2x]
        exact hqhost
      · rw [removeResult_host w x p n a hax]
        exact hqne
      · rw [removeResult_host w x p n a hax, removeResult_child w x p n q.2 hq2x]
        by_cases hqP : q.2 ∈ ((w.nodes x).hostToParent).map Prod.snd
        · rw [if_pos hqP]
          have hhne : (w.nodes a).host ≠ (w.nodes x).host := by
            intro he
            have h5 := hPmem q.2 hqP
            rw [← he] at h5
            rw [hqsym] at h5
            exact hax (Option.some.inj h5)
          rw [alistGet_erase_other _ _ _ hhne]
          exact hqsym
        · rw [if_neg hqP]
          exact hqsym
    · rw [removeResult_child w x p n a hax]
      by_cases haP : a ∈ ((w.nodes x).hostToParent).map Prod.snd
      · rw [if_pos haP]
        exact nodup_keys_alistErase _ _ hka.1
      · rw [if_neg haP]
        exact hka.1
    · rw [removeResult_parent w x p n a hax]
      by_cases haC : a ∈ ((w.nodes x).hostToChild).map Prod.snd
      · rw [if_pos haC]
        exact nodup_keys_alistErase _ _ hka.2
      · rw [if_neg haC]
        exact hka.2
    · intro hflag2
      have hflag2w : ((w.nodes a).isHead || (w.nodes a).isTail) = true := by
        rw [← removeResult_isHead w x p n a hax, ← removeResult_isTail w x p n a hax]
        exact hflag2
      obtain ⟨hc0, hp0⟩ := hsa hflag2w
      constructor
      · rw [removeResult_child w x p n a hax]
        by_cases haP : a ∈ ((w.nodes x).hostToParent).map Prod.snd
        · rw [if_pos haP, alistErase_nil_of_eq _ _ hc0]
        · rw [if_neg haP]
          exact hc0
      · rw [removeResult_parent w x p n a hax]
        by_cases haC : a ∈ ((w.nodes x).hostToChild).map Prod.snd
        · rw [if_pos haC, alistErase_nil_of_eq _ _ hp0]
        · rw [if_neg haC]
          exact hp0
    · intro hflag2
      have hflag2w : ((w.nodes a).isHead || (w.nodes a).isTail) = false := by
        rw [← removeResult_isHead w x p n a hax, ← removeResult_isTail w x p n a hax]
        exact hflag2
      rw [removeResult_prev w x p n a hax, removeResult_next w x p n a hax]
      by_cases hap : a = p
      · by_cases han : a = n
        · rw [if_pos hap, if_pos han]
          simp
        · rw [if_pos hap, if_neg han]
          have h6 : (w.nodes a).next.isSome = true := by
            rw [hap, hpnext]
            rfl
          have h7 := (hla hflag2w).mpr h6
          simp [h7]
      · by_cases han : a = n
        · rw [if_neg hap, if_pos han]
          have h6 : (w.nodes a).prev.isSome = true := by
            rw [han, hnprev]
            rfl
          have h7 := (hla hflag2w).mp h6
          simp [h7]
        · rw [if_neg hap, if_neg han]
          exact hla hflag2w

theorem linkNext_inv (w0 W : World) (t n q : Nat) (h : Option String) (hw0 : NodeInv w0)
    (ht : t ∈ w0.ids) (htn : t ≠ n) (hqn : q ≠ n)
    (hnp : (w0.nodes n).prev = none) (hnn : (w0.nodes n).next = none)
    (hnc : (w0.nodes n).hostToChild = []) (hnpar : (w0.nodes n).hostToParent = [])
    (hq : (w0.nodes t).next = some q)
    (hWids : W.ids = w0.ids)
    (hWmap : ∀ b, W.nodes b =
      if b = n then { w0.nodes n with prev := some t, next := some q, host := h }
      else if b = t then
        (if t = q then { w0.nodes t with next := some n, prev := some n }
         else { w0.nodes t with next := some n })
      else if b = q then { w0.nodes q with prev := some n }
      else w0.nodes b) :
    NodeInv W := by
  have hprev : ∀ b, (W.nodes b).prev =
      (if b = n then some t else if b = q then some n else (w0.nodes b).prev) := by
    intro b
    rw [hWmap b]
    by_cases hbn : b = n
    · rw [if_pos hbn, if_pos hbn]
    · rw [if_neg hbn, if_neg hbn]
      by_cases hbt : b = t
      · rw [if_pos hbt]
        by_cases htq : t = q
        · rw [if_pos htq, if_pos (hbt.trans htq)]
        · rw [if_neg htq, if_neg (fun he => htq (hbt.symm.trans he)), hbt]
      · rw [if_neg hbt]
        by_cases hbq : b = q
        · rw [if_pos hbq, if_pos hbq]
        · rw [if_neg hbq, if_neg hbq]
  have hnext : ∀ b, (W.nodes b).next =
      (if b = n then some q else if b = t then some n else (w0.nodes b).next) := by
    intro b
    rw [hWmap b]
    by_cases hbn : b = n
    · rw [if_pos hbn, if_pos hbn]
    · rw [if_neg hbn, if_neg hbn]
      by_cases hbt : b = t
      · rw [if_pos hbt, if_pos hbt]
        by_cases htq : t = q
        · rw [if_pos htq]
        · rw [if_neg htq]
      · rw [if_neg hbt, if_neg hbt]
        by_cases hbq : b = q
        · rw [if_pos hbq, hbq]
        · rw [if_neg hbq]
  have hhost : ∀ b, (W.nodes b).host = (if b = n then h else (w0.nodes b).host) := by
    intro b
    rw [hWmap b]
    by_cases hbn : b = n
    · rw [if_pos hbn, if_pos hbn]
    · rw [if_neg hbn, if_neg hbn]
      by_cases hbt : b = t
      · rw [if_pos hbt]
        by_cases htq : t = q
        · rw [if_pos htq, hbt]
        · rw [if_neg htq, hbt]
      · rw [if_neg hbt]
        by_cases hbq : b = q
        · rw [if_pos hbq, hbq]
        · rw [if_neg hbq]
  have hheadf : ∀ b, (W.nodes b).isHead = (w0.nodes b).isHead := by
    intro b
    rw [hWmap b]
    by_cases hbn : b = n
    · rw [if_pos hbn, hbn]
    · rw [if_neg hbn]
      by_cases hbt : b = t
      · rw [if_pos hbt]
        by_cases htq : t = q
        · rw [if_pos htq, hbt]
        · rw [if_neg htq, hbt]
      · rw [if_neg hbt]
        by_cases hbq : b = q
        · rw [if_pos hbq, hbq]
        · rw [if_neg hbq]
  have htailf : ∀ b, (W.nodes b).isTail = (w0.nodes b).isTail := by
    intro b
    rw [hWmap b]
    by_cases hbn : b = n
    · rw [if_pos hbn, hbn]
    · rw [if_neg hbn]
      by_cases hbt : b = t
      · rw [if_pos hbt]
        by_cases htq : t = q
        · rw [if_pos htq, hbt]
        · rw [if_neg htq, hbt]
      · rw [if_neg hbt]
        by_cases hbq : b = q
        · rw [if_pos hbq, hbq]
        · rw [if_neg hbq]
  have hfamC : ∀ b, (W.nodes b).hostToChild = (w0.nodes b).hostToChild := by
    intro b
    rw [hWmap b]
    by_cases hbn : b = n
    · rw [if_pos hbn, hbn]
    · rw [if_neg hbn]
      by_cases hbt : b = t
      · rw [if_pos hbt]
        by_cases htq : t = q
        · rw [if_pos htq, hbt]
        · rw [if_neg htq, hbt]
      · rw [if_neg hbt]
        by_cases hbq : b = q
        · rw [if_pos hbq, hbq]
        · rw [if_neg hbq]
  have hfamP : ∀ b, (W.nodes b).hostToParent = (w0.nodes b).hostToParent := by
    intro b
    rw [hWmap b]
    by_cases hbn : b = n
    · rw [if_pos hbn, hbn]
    · rw [if_neg hbn]
      by_cases hbt : b = t
      · rw [if_pos hbt]
        by_cases htq : t = q
        · rw [if_pos htq, hbt]
        · rw [if_neg htq, hbt]
      · rw [if_neg hbt]
        by_cases hbq : b = q
        · rw [if_pos hbq, hbq]
        · rw [if_neg hbq]
  have hnoC : ∀ b, b ∈ w0.ids → ∀ r ∈ (w0.nodes b).hostToChild, r.2 ≠ n := by
    intro b hb r hr he
    have h4 := ((hw0 b hb).2.1 r hr).2.2.2
    rw [he, hnpar, alistGet_nil] at h4
    exact Option.noConfusion h4
  have hnoP : ∀ b, b ∈ w0.ids → ∀ r ∈ (w0.nodes b).hostToParent, r.2 ≠ n := by
    intro b hb r hr he
    have h4 := ((hw0 b hb).2.2.1 r hr).2.2.2
    rw [he, hnc, alistGet_nil] at h4
    exact Option.noConfusion h4
  intro a ha
  have ha0 : a ∈ w0.ids := by
    rw [hWids] at ha
    exact ha
  obtain ⟨hNa, hCa, hPa, hKa, hSa, hLa⟩ := hw0 a ha0
  refine ⟨⟨?_, ?_⟩, ?_, ?_, ⟨?_, ?_⟩, ?_, ?_⟩
  · intro b hb
    rw [Option.mem_def, hnext a] at hb
    by_cases han : a = n
    · rw [if_pos han] at hb
      have hbq : b = q := (Option.some.inj hb).symm
      rw [hbq, hprev q, if_neg hqn, if_pos rfl, han]
    · rw [if_neg han] at hb
      by_cases hat : a = t
      · rw [if_pos hat] at hb
        have hbn : b = n := (Option.some.inj hb).symm
        rw [hbn, hprev n, if_pos rfl, hat]
      · rw [if_neg hat] at hb
        have hb0 : (w0.nodes b).prev = some a := hNa.1 b (Option.mem_def.mpr hb)
        have hbn : b ≠ n := by
          intro he
          rw [he, hnp] at hb0
          exact Option.noConfusion hb0
        have hbq : b ≠ q := by
          intro he
          rw [he] at hb0
          have h8 : (w0.nodes q).prev = some t := (hw0 t ht).1.1 q (Option.mem_def.mpr hq)
          rw [h8] at hb0
          exact hat (Option.some.inj hb0).symm
        rw [hprev b, if_neg hbn, if_neg hbq]
        exact hb0
  · intro b hb
    rw [Option.mem_def, hprev a] at hb
    by_cases han : a = n
    · rw [if_pos han] at hb
      have hbt : b = t := (Option.some.inj hb).symm
      rw [hbt, hnext t, if_neg htn, if_pos rfl, han]
    · rw [if_neg han] at hb
      by_cases haq : a = q
      · rw [if_pos haq] at hb
        have hbn : b = n := (Option.some.inj hb).symm
        rw [hbn, hnext n, if_pos rfl, haq]
      · rw [if_neg haq] at hb
        have hb0 : (w0.nodes b).next = some a := hNa.2 b (Option.mem_def.mpr hb)
        have hbn : b ≠ n := by
          intro he
          rw [he, hnn] at hb0
          exact Option.noConfusion hb0
        have hbt : b ≠ t := by
          intro he
          rw [he, hq] at hb0
          exact haq (Option.some.inj hb0).symm
        rw [hnext b, if_neg hbn, if_neg hbt]
        exact hb0
  · intro r hr
    rw [hfamC a] at hr
    by_cases han : a = n
    · rw [han, hnc] at hr
      exact absurd hr (List.not_mem_nil r)
    · obtain ⟨rid, rhost, rne, rsym⟩ := hCa r hr
      refine ⟨?_, ?_, ?_, ?_⟩
      · rw [hWids]
        exact rid
      · rw [hhost r.2, if_neg (hnoC a ha0 r hr)]
        exact rhost
      · rw [hhost a, if_neg han]
        exact rne
      · rw [hfamP r.2, hhost a, if_neg han]
        exact rsym
  · intro r hr
    rw [hfamP a] at hr
    by_cases han : a = n
    · rw [han, hnpar] at hr
      exact absurd hr (List.not_mem_nil r)
    · obtain ⟨rid, rhost, rne, rsym⟩ := hPa r hr
      refine ⟨?_, ?_, ?_, ?_⟩
      · rw [hWids]
        exact rid
      · rw [hhost r.2, if_neg (hnoP a ha0 r hr)]
        exact rhost
      · rw [hhost a, if_neg han]
        exact rne
      · rw [hfamC r.2, hhost a, if_neg han]
        exact rsym
  · rw [hfamC a]
    exact hKa.1
  · rw [hfamP a]
    exact hKa.2
  · intro hflag2
    have hflag2w : ((w0.nodes a).isHead || (w0.nodes a).isTail) = true := by
      rw [← hheadf a, ← htailf a]
      exact hflag2
    obtain ⟨hc0, hp0⟩ := hSa hflag2w
    rw [hfamC a, hfamP a]
    exact ⟨hc0, hp0⟩
  · intro hflag2
    have hflag2w : ((w0.nodes a).isHead || (w0.nodes a).isTail) = false := by
      rw [← hheadf a, ← htailf a]
      exact hflag2
    rw [hprev a, hnext a]
    by_cases han : a = n
    · rw [if_pos han, if_pos han]
      simp
    · rw [if_neg han, if_neg han]
      by_cases haq : a = q
      · rw [if_pos haq]
        by_cases hat : a = t
        · rw [if_pos hat]
        · rw [if_neg hat]
          have h8 : (w0.nodes a).prev.isSome = true := by
            rw [haq, (hw0 t ht).1.1 q (Option.mem_def.mpr hq)]
            rfl
          have h9 := (hLa hflag2w).mp h8
          simp [h9]
      · rw [if_neg haq]
        by_cases hat : a = t
        · rw [if_pos hat]
          have h8 : (w0.nodes a).next.isSome = true := by
            rw [hat, hq]
            rfl
          have h9 := (hLa hflag2w).mpr h8
          simp [h9]
        · rw [if_neg hat]
          exact hLa hflag2w

theorem linkPrev_inv (w0 W : World) (t n q : Nat) (h : Option String) (hw0 : NodeInv w0)
    (ht : t ∈ w0.ids) (htn : t ≠ n) (hqn : q ≠ n)
    (hnp : (w0.nodes n).prev = none) (hnn : (w0.nodes n).next = none)
    (hnc : (w0.nodes n).hostToChild = []) (hnpar : (w0.nodes n).hostToParent = [])
    (hq : (w0.nodes t).prev = some q)
    (hWids : W.ids = w0.ids)
    (hWmap : ∀ b, W.nodes b =
      if b = n then { w0.nodes n with prev := some q, next := some t, host := h }
      else if b = t then
        (if t = q then { w0.nodes t with prev := some n, next := some n }
         else { w0.nodes t with prev := some n })
      else if b = q then { w0.nodes q with next := some n }
      else w0.nodes b) :
    NodeInv W := by
  have hnext : ∀ b, (W.nodes b).next =
      (if b = n then some t else if b = q then some n else (w0.nodes b).next) := by
    intro b
    rw [hWmap b]
    by_cases hbn : b = n
    · rw [if_pos hbn, if_pos hbn]
    · rw [if_neg hbn, if_neg hbn]
      by_cases hbt : b = t
      · rw [if_pos hbt]
        by_cases htq : t = q
        · rw [if_pos htq, if_pos (hbt.trans htq)]
        · rw [if_neg htq, if_neg (fun he => htq (hbt.symm.trans he)), hbt]
      · rw [if_neg hbt]
        by_cases hbq : b = q
        · rw [if_pos hbq, if_pos hbq]
        · rw [if_neg hbq, if_neg hbq]
  have hprev : ∀ b, (W.nodes b).prev =
      (if b = n then some q else if b = t then some n else (w0.nodes b).prev) := by
    intro b
    rw [hWmap b]
    by_cases hbn : b = n
    · rw [if_pos hbn, if_pos hbn]
    · rw [if_neg hbn, if_neg hbn]
      by_cases hbt : b = t
      · rw [if_pos hbt, if_pos hbt]
        by_cases htq : t = q
        · rw [if_pos htq]
        · rw [if_neg htq]
      · rw [if_neg hbt, if_neg hbt]
        by_cases hbq : b = q
        · rw [if_pos hbq, hbq]
        · rw [if_neg hbq]
  have hhost : ∀ b, (W.nodes b).host = (if b = n then h else (w0.nodes b).host) := by
    intro b
    rw [hWmap b]
    by_cases hbn : b = n
    · rw [if_pos hbn, if_pos hbn]
    · rw [if_neg hbn, if_neg hbn]
      by_cases hbt : b = t
      · rw [if_pos hbt]
        by_cases htq : t = q
        · rw [if_pos htq, hbt]
        · rw [if_neg htq, hbt]
      · rw [if_neg hbt]
        by_cases hbq : b = q
        · rw [if_pos hbq, hbq]
        · rw [if_neg hbq]
  have hheadf : ∀ b, (W.nodes b).isHead = (w0.nodes b).isHead := by
    intro b
    rw [hWmap b]
    by_cases hbn : b = n
    · rw [if_pos hbn, hbn]
    · rw [if_neg hbn]
      by_cases hbt : b = t
      · rw [if_pos hbt]
        by_cases htq : t = q
        · rw [if_pos htq, hbt]
        · rw [if_neg htq, hbt]
      · rw [if_neg hbt]
        by_cases hbq : b = q
        · rw [if_pos hbq, hbq]
        · rw [if_neg hbq]
  have htailf : ∀ b, (W.nodes b).isTail = (w0.nodes b).isTail := by
    intro b
    rw [hWmap b]
    by_cases hbn : b = n
    · rw [if_pos hbn, hbn]
    · rw [if_neg hbn]
      by_cases hbt : b = t
      · rw [if_pos hbt]
        by_cases htq : t = q
        · rw [if_pos htq, hbt]
        · rw [if_neg htq, hbt]
      · rw [if_neg hbt]
        by_cases hbq : b = q
        · rw [if_pos hbq, hbq]
        · rw [if_neg hbq]
  have hfamC : ∀ b, (W.nodes b).hostToChild = (w0.nodes b).hostToChild := by
    intro b
    rw [hWmap b]
    by_cases hbn : b = n
    · rw [if_pos hbn, hbn]
    · rw [if_neg hbn]
      by_cases hbt : b = t
      · rw [if_pos hbt]
        by_cases htq : t = q
        · rw [if_pos htq, hbt]
        · rw [if_neg htq, hbt]
      · rw [if_neg hbt]
        by_cases hbq : b = q
        · rw [if_pos hbq, hbq]
        · rw [if_neg hbq]
  have hfamP : ∀ b, (W.nodes b).hostToParent = (w0.nodes b).hostToParent := by
    intro b
    rw [hWmap b]
    by_cases hbn : b = n
    · rw [if_pos hbn, hbn]
    · rw [if_neg hbn]
      by_cases hbt : b = t
      · rw [if_pos hbt]
        by_cases htq : t = q
        · rw [if_pos htq, hbt]
        · rw [if_neg htq, hbt]
      · rw [if_neg hbt]
        by_cases hbq : b = q
        · rw [if_pos hbq, hbq]
        · rw [if_neg hbq]
  have hnoC : ∀ b, b ∈ w0.ids → ∀ r ∈ (w0.nodes b).hostToChild, r.2 ≠ n := by
    intro b hb r hr he
    have h4 := ((hw0 b hb).2.1 r hr).2.2.2
    rw [he, hnpar, alistGet_nil] at h4
    exact Option.noConfusion h4
  have hnoP : ∀ b, b ∈ w0.ids → ∀ r ∈ (w0.nodes b).hostToParent, r.2 ≠ n := by
    intro b hb r hr he
    have h4 := ((hw0 b hb).2.2.1 r hr).2.2.2
    rw [he, hnc, alistGet_nil] at h4
    exact Option.noConfusion h4
  intro a ha
  have ha0 : a ∈ w0.ids := by
    rw [hWids] at ha
    exact ha
  obtain ⟨hNa, hCa, hPa, hKa, hSa, hLa⟩ := hw0 a ha0
  refine ⟨⟨?_, ?_⟩, ?_, ?_, ⟨?_, ?_⟩, ?_, ?_⟩
  · intro b hb
    rw [Option.mem_def, hnext a] at hb
    by_cases han : a = n
    · rw [if_pos han] at hb
      have hbt : b = t := (Option.some.inj hb).symm
      rw [hbt, hprev t, if_neg htn, if_pos rfl, han]
    · rw [if_neg han] at hb
      by_cases haq : a = q
      · rw [if_pos haq] at hb
        have hbn : b = n := (Option.some.inj hb).symm
        rw [hbn, hprev n, if_pos rfl, haq]
      · rw [if_neg haq] at hb
        have hb0 : (w0.nodes b).prev = some a := hNa.1 b (Option.mem_def.mpr hb)
        have hbn : b ≠ n := by
          intro he
          rw [he, hnp] at hb0
          exact Option.noConfusion hb0
        have hbt : b ≠ t := by
          intro he
          rw [he, hq] at hb0
          exact haq (Option.some.inj hb0).symm
        rw [hprev b, if_neg hbn, if_neg hbt]
        exact hb0
  · intro b hb
    rw [Option.mem_def, hprev a] at hb
    by_cases han : a = n
    · rw [if_pos han] at hb
      have hbq : b = q := (Option.some.inj hb).symm
      rw [hbq, hnext q, if_neg hqn, if_pos rfl, han]
    · rw [if_neg han] at hb
      by_cases hat : a = t
      · rw [if_pos hat] at hb
        have hbn : b = n := (Option.some.inj hb).symm
        rw [hbn, hnext n, if_pos rfl, hat]
      · rw [if_neg hat] at hb
        have hb0 : (w0.nodes b).next = some a := hNa.2 b (Option.mem_def.mpr hb)
        have hbn : b ≠ n := by
          intro he
          rw [he, hnn] at hb0
          exact Option.noConfusion hb0
        have hbq : b ≠ q := by
          intro he
          rw [he] at hb0
          have h8 : (w0.nodes q).next = some t := (hw0 t ht).1.2 q (Option.mem_def.mpr hq)
          rw [h8] at hb0
          exact hat (Option.some.inj hb0).symm
        rw [hnext b, if_neg hbn, if_neg hbq]
        exact hb0
  · intro r hr
    rw [hfamC a] at hr
    by_cases han : a = n
    · rw [han, hnc] at hr
      exact absurd hr (List.not_mem_nil r)
    · obtain ⟨rid, rhost, rne, rsym⟩ := hCa r hr
      refine ⟨?_, ?_, ?_, ?_⟩
      · rw [hWids]
        exact rid
      · rw [hhost r.2, if_neg (hnoC a ha0 r hr)]
        exact rhost
      · rw [hhost a, if_neg han]
        exact rne
      · rw [hfamP r.2, hhost a, if_neg han]
        exact rsym
  · intro r hr
    rw [hfamP a] at hr
    by_cases han : a = n
    · rw [han, hnpar] at hr
      exact absurd hr (List.not_mem_nil r)
    · obtain ⟨rid, rhost, rne, rsym⟩ := hPa r hr
      refine ⟨?_, ?_, ?_, ?_⟩
      · rw [hWids]
        exact rid
      · rw [hhost r.2, if_neg (hnoP a ha0 r hr)]
        exact rhost
      · rw [hhost a, if_neg han]
        exact rne
      · rw [hfamC r.2, hhost a, if_neg han]
        exact rsym
  · rw [hfamC a]
    exact hKa.1
  · rw [hfamP a]
    exact hKa.2
  · intro hflag2
    have hflag2w : ((w0.nodes a).isHead || (w0.nodes a).isTail) = true := by
      rw [← hheadf a, ← htailf a]
      exact hflag2
    obtain ⟨hc0, hp0⟩ := hSa hflag2w
    rw [hfamC a, hfamP a]
    exact ⟨hc0, hp0⟩
  · intro hflag2
    have hflag2w : ((w0.nodes a).isHead || (w0.nodes a).isTail) = false := by
      rw [← hheadf a, ← htailf a]
      exact hflag2
    rw [hprev a, hnext a]
    by_cases han : a = n
    · rw [if_pos han, if_pos han]
      simp
    · rw [if_neg han, if_neg han]
      by_cases hat : a = t
      · rw [if_pos hat]
        by_cases haq : a = q
        · rw [if_pos haq]
        · rw [if_neg haq]
          have h8 : (w0.nodes a).prev.isSome = true := by
            rw [hat, hq]
            rfl
          have h9 := (hLa hflag2w).mp h8
          simp [h9]
      · rw [if_neg hat]
        by_cases haq : a = q
        · rw [if_pos haq]
          have h8 : (w0.nodes a).next.isSome = true := by
            rw [haq, (hw0 t ht).1.2 q (Option.mem_def.mpr hq)]
            rfl
          have h9 := (hLa hflag2w).mpr h8
          simp [h9]
        · rw [if_neg haq]
          exact hLa hflag2w

theorem bool_eq_false_of_ne_true {b : Bool} (h : ¬ b = true) : b = false := by
  cases b
  · rfl
  · exact absurd rfl h

theorem removeOp_nonsentinel_cases (w : World) (x : Nat) (hw : NodeInv w) (hx : x ∈ w.ids)
    (hflag : ((w.nodes x).isHead || (w.nodes x).isTail) = false) :
    (∃ p n, (w.nodes x).prev = some p ∧ (w.nodes x).next = some n ∧
      removeOp w x = some (removeResult w x p n))
  ∨ ((w.nodes x).prev = none ∧ (w.nodes x).next = none ∧ removeOp w x = some w) := by
  have hsent : ¬ ((w.nodes x).isHead || (w.nodes x).isTail) = true := by
    rw [hflag]
    exact Bool.false_ne_true
  have hlx := (hw x hx).2.2.2.2.2
  cases hpv : (w.nodes x).prev with
  | none =>
      have hnv : (w.nodes x).next = none := by
        cases hnv2 : (w.nodes x).next with
        | none => rfl
        | some z =>
            have h1 : (w.nodes x).next.isSome = true := by
              rw [hnv2]
              rfl
            have h2 := (hlx hflag).mpr h1
            rw [hpv] at h2
            simp at h2
      right
      refine ⟨rfl, hnv, ?_⟩
      unfold removeOp
      rw [if_neg hsent, hpv, hnv]
  | some p =>
      cases hnv : (w.nodes x).next with
      | none =>
          have h1 : (w.nodes x).prev.isSome = true := by
            rw [hpv]
            rfl
          have h2 := (hlx hflag).mp h1
          rw [hnv] at h2
          simp at h2
      | some n =>
          left
          refine ⟨p, n, rfl, rfl, ?_⟩
          obtain ⟨_, hcx, hpx2, hkx, _, _⟩ := hw x hx
          have hneP : ∀ q ∈ (w.nodes x).hostToParent, q.2 ≠ x := by
            intro q hq he
            have h1 := (hpx2 q hq).2.1
            rw [he] at h1
            exact (hpx2 q hq).2.2.1 h1.symm
          have hneC : ∀ q ∈ (w.nodes x).hostToChild, q.2 ≠ x := by
            intro q hq he
            have h1 := (hcx q hq).2.1
            rw [he] at h1
            exact (hcx q hq).2.2.1 h1.symm
          have hvalsP := famvals_nodup ((w.nodes x).hostToParent) w hkx.2
            (fun q hq => (hpx2 q hq).2.1)
          have hvalsC := famvals_nodup ((w.nodes x).hostToChild) w hkx.1
            (fun q hq => (hcx q hq).2.1)
          rw [removeOp_eq_stages w x p n hflag hpv hnv,
              removeStages_eq w x p n hneP hneC hvalsP hvalsC]

theorem remove_applyOp_inv (w : World) (x : Nat) (hw : NodeInv w) (hx : x ∈ w.ids) :
    NodeInv (applyOp w (Op.remove x)) := by
  by_cases hsent : ((w.nodes x).isHead || (w.nodes x).isTail) = true
  · have hnone : removeOp w x = none := by
      unfold removeOp
      rw [if_pos hsent]
    simp only [applyOp, hnone]
    exact hw
  · have hflag : ((w.nodes x).isHead || (w.nodes x).isTail) = false :=
      bool_eq_false_of_ne_true hsent
    rcases removeOp_nonsentinel_cases w x hw hx hflag with ⟨p, n, hpv, hnv, heq⟩ | ⟨hpv, hnv, heq⟩
    · simp only [applyOp, heq]
      exact removeResult_inv w x p n hw hx hflag hpv hnv
    · simp only [applyOp, heq]
      exact hw

theorem insertChain_nodes (w0 : World) (t n q : Nat) (h : Option String)
    (htn : t ≠ n) (hqn : q ≠ n) :
    ∀ b, ((upd (upd (upd (upd (upd w0 n (fun a => { a with prev := some t }))
        n (fun a => { a with next := some q })) t (fun a => { a with next := some n }))
        q (fun a => { a with prev := some n })) n (fun a => { a with host := h })).nodes b) =
      (if b = n then { w0.nodes n with prev := some t, next := some q, host := h }
       else if b = t then
         (if t = q then { w0.nodes t with next := some n, prev := some n }
          else { w0.nodes t with next := some n })
       else if b = q then { w0.nodes q with prev := some n }
       else w0.nodes b) := by
  intro b
  have hnt : n ≠ t := fun he => htn he.symm
  have hnq : n ≠ q := fun he => hqn he.symm
  by_cases hbn : b = n
  · rw [hbn, if_pos rfl, upd_nodes_same, upd_nodes_ne _ q _ n hnq, upd_nodes_ne _ t _ n hnt,
        upd_nodes_same, upd_nodes_same]
  · rw [if_neg hbn]
    by_cases hbt : b = t
    · rw [if_pos hbt, hbt, upd_nodes_ne _ n _ t htn]
      by_cases htq : t = q
      · rw [if_pos htq, ← htq, upd_nodes_same, upd_nodes_same, upd_nodes_ne _ n _ t htn,
            upd_nodes_ne _ n _ t htn]
      · rw [if_neg htq, upd_nodes_ne _ q _ t htq, upd_nodes_same, upd_nodes_ne _ n _ t htn,
            upd_nodes_ne _ n _ t htn]
    · rw [if_neg hbt]
      by_cases hbq : b = q
      · rw [if_pos hbq, hbq, upd_nodes_ne _ n _ q hqn, upd_nodes_same,
            upd_nodes_ne _ t _ q (fun he => hbt (hbq.trans he)), upd_nodes_ne _ n _ q hqn,
            upd_nodes_ne _ n _ q hqn]
      · rw [if_neg hbq, upd_nodes_ne _ n _ b hbn, upd_nodes_ne _ q _ b hbq,
            upd_nodes_ne _ t _ b hbt, upd_nodes_ne _ n _ b hbn, upd_nodes_ne _ n _ b hbn]

theorem insertPrevChain_nodes (w0 : World) (t n q : Nat) (h : Option String)
    (htn : t ≠ n) (hqn : q ≠ n) :
    ∀ b, ((upd (upd (upd (upd (upd w0 n (fun a => { a with next := some t }))
        n (fun a => { a with prev := some q })) t (fun a => { a with prev := some n }))
        q (fun a => { a with next := some n })) n (fun a => { a with host := h })).nodes b) =
      (if b = n then { w0.nodes n with prev := some q, next := some t, host := h }
       else if b = t then
         (if t = q then { w0.nodes t with prev := some n, next := some n }
          else { w0.nodes t with prev := some n })
       else if b = q then { w0.nodes q with next := some n }
       else w0.nodes b) := by
  intro b
  have hnt : n ≠ t := fun he => htn he.symm
  have hnq : n ≠ q := fun he => hqn he.symm
  by_cases hbn : b = n
  · rw [hbn, if_pos rfl, upd_nodes_same, upd_nodes_ne _ q _ n hnq, upd_nodes_ne _ t _ n hnt,
        upd_nodes_same, upd_nodes_same]
  · rw [if_neg hbn]
    by_cases hbt : b = t
    · rw [if_pos hbt, hbt, upd_nodes_ne _ n _ t htn]
      by_cases htq : t = q
      · rw [if_pos htq, ← htq, upd_nodes_same, upd_nodes_same, upd_nodes_ne _ n _ t htn,
            upd_nodes_ne _ n _ t htn]
      · rw [if_neg htq, upd_nodes_ne _ q _ t htq, upd_nodes_same, upd_nodes_ne _ n _ t htn,
            upd_nodes_ne _ n _ t htn]
    · rw [if_neg hbt]
      by_cases hbq : b = q
      · rw [if_pos hbq, hbq, upd_nodes_ne _ n _ q hqn, upd_nodes_same,
            upd_nodes_ne _ t _ q (fun he => hbt (hbq.trans he)), upd_nodes_ne _ n _ q hqn,
            upd_nodes_ne _ n _ q hqn]
      · rw [if_neg hbq, upd_nodes_ne _ n _ b hbn, upd_nodes_ne _ q _ b hbq,
            upd_nodes_ne _ t _ b hbt, upd_nodes_ne _ n _ b hbn, upd_nodes_ne _ n _ b hbn]

theorem insertNextOp_preserves (w : World) (t n : Nat) (hw : NodeInv w)
    (ht : t ∈ w.ids) (hni : n ∈ w.ids) (htn : t ≠ n)
    (htnext : ((w.nodes t).next).isSome = true)
    (hdet : (w.nodes n).prev = none →
      (w.nodes n).hostToChild = [] ∧ (w.nodes n).hostToParent = []) :
    NodeInv (insertNextOp w t n) := by
  unfold insertNextOp
  by_cases hg1 : (w.nodes t).next = some n
  · rw [if_pos hg1]
    exact hw
  rw [if_neg hg1]
  by_cases hg2 : (w.nodes t).isTail = true
  · rw [if_pos hg2]
    exact hw
  rw [if_neg hg2]
  obtain ⟨q0, hq0⟩ := Option.isSome_iff_exists.mp htnext
  by_cases hsentn : ((w.nodes n).isHead || (w.nodes n).isTail) = true
  · have hnone : removeOp w n = none := by
      unfold removeOp
      rw [if_pos hsentn]
    rw [hnone]
    exact hw
  have hflagn : ((w.nodes n).isHead || (w.nodes n).isTail) = false :=
    bool_eq_false_of_ne_true hsentn
  rcases removeOp_nonsentinel_cases w n hw hni hflagn with
    ⟨pn, nn, hpv, hnv, heq⟩ | ⟨hpv, hnv, heq⟩
  · have hw0 := removeResult_inv w n pn nn hw hni hflagn hpv hnv
    obtain ⟨q, hQ, hqn2⟩ : ∃ z, ((removeResult w n pn nn).nodes t).next = some z ∧ z ≠ n := by
      by_cases htpn : t = pn
      · refine ⟨nn, ?_, ?_⟩
        · rw [removeResult_next w n pn nn t htn, if_pos htpn]
        · intro he
          have hnv2 : (w.nodes n).next = some n := by rw [hnv, he]
          have h1 : (w.nodes n).prev = some n := (hw n hni).1.1 n (Option.mem_def.mpr hnv2)
          rw [hpv] at h1
          exact htn (htpn.trans (Option.some.inj h1))
      · refine ⟨q0, ?_, ?_⟩
        · rw [removeResult_next w n pn nn t htn, if_neg htpn]
          exact hq0
        · intro he
          rw [he] at hq0
          exact hg1 hq0
    have hnp0 : ((removeResult w n pn nn).nodes n).prev = none := by
      rw [removeResult_node_x]
    have hnn0 : ((removeResult w n pn nn).nodes n).next = none := by
      rw [removeResult_node_x]
    have hnc0 : ((removeResult w n pn nn).nodes n).hostToChild = [] := by
      rw [removeResult_node_x]
    have hnpar0 : ((removeResult w n pn nn).nodes n).hostToParent = [] := by
      rw [removeResult_node_x]
    simp only [heq]
    have h1 : ((upd (removeResult w n pn nn) n
        (fun a => { a with prev := some t })).nodes t).next = some q := by
      rw [upd_nodes_ne _ n _ t htn]
      exact hQ
    rw [h1]
    have h2 : ((upd (upd (upd (removeResult w n pn nn) n (fun a => { a with prev := some t }))
        n (fun a => { a with next := some q })) t
        (fun a => { a with next := some n })).nodes n).next = some q := by
      rw [upd_nodes_ne _ t _ n (fun he => htn he.symm), upd_nodes_same]
    rw [h2]
    exact linkNext_inv _ _ t n q _ hw0 ht htn hqn2 hnp0 hnn0 hnc0 hnpar0 hQ rfl
      (insertChain_nodes _ t n q _ htn hqn2)
  · obtain ⟨hnc0, hnpar0⟩ := hdet hpv
    have hqn2 : q0 ≠ n := by
      intro he
      rw [he] at hq0
      exact hg1 hq0
    simp only [heq]
    have h1 : ((upd w n (fun a => { a with prev := some t })).nodes t).next = some q0 := by
      rw [upd_nodes_ne _ n _ t htn]
      exact hq0
    rw [h1]
    have h2 : ((upd (upd (upd w n (fun a => { a with prev := some t }))
        n (fun a => { a with next := some q0 })) t
        (fun a => { a with next := some n })).nodes n).next = some q0 := by
      rw [upd_nodes_ne _ t _ n (fun he => htn he.symm), upd_nodes_same]
    rw [h2]
    exact linkNext_inv _ _ t n q0 _ hw ht htn hqn2 hpv hnv hnc0 hnpar0 hq0 rfl
      (insertChain_nodes _ t n q0 _ htn hqn2)

theorem insertPrevOp_preserves (w : World) (t n : Nat) (hw : NodeInv w)
    (ht : t ∈ w.ids) (hni : n ∈ w.ids) (htn : t ≠ n)
    (htprev : ((w.nodes t).prev).isSome = true)
    (hdet : (w.nodes n).prev = none →
      (w.nodes n).hostToChild = [] ∧ (w.nodes n).hostToParent = []) :
    NodeInv (insertPrevOp w t n) := by
  unfold insertPrevOp
  by_cases hg1 : (w.nodes t).prev = some n
  · rw [if_pos hg1]
    exact hw
  rw [if_neg hg1]
  by_cases hg2 : (w.nodes t).isHead = true
  · rw [if_pos hg2]
    exact hw
  rw [if_neg hg2]
  obtain ⟨q0, hq0⟩ := Option.isSome_iff_exists.mp htprev
  by_cases hsentn : ((w.nodes n).isHead || (w.nodes n).isTail) = true
  · have hnone : removeOp w n = none := by
      unfold removeOp
      rw [if_pos hsentn]
    rw [hnone]
    exact hw
  have hflagn : ((w.nodes n).isHead || (w.nodes n).isTail) = false :=
    bool_eq_false_of_ne_true hsentn
  rcases removeOp_nonsentinel_cases w n hw hni hflagn with
    ⟨pn, nn, hpv, hnv, heq⟩ | ⟨hpv, hnv, heq⟩
  · have hw0 := removeResult_inv w n pn nn hw hni hflagn hpv hnv
    obtain ⟨q, hQ, hqn2⟩ : ∃ z, ((removeResult w n pn nn).nodes t).prev = some z ∧ z ≠ n := by
      by_cases htnn : t = nn
      · refine ⟨pn, ?_, ?_⟩
        · rw [removeResult_prev w n pn nn t htn, if_pos htnn]
        · intro he
          have hpv2 : (w.nodes n).prev = some n := by rw [hpv, he]
          have h1 : (w.nodes n).next = some n := (hw n hni).1.2 n (Option.mem_def.mpr hpv2)
          rw [hnv] at h1
          exact htn (htnn.trans (Option.some.inj h1))
      · refine ⟨q0, ?_, ?_⟩
        · rw [removeResult_prev w n pn nn t htn, if_neg htnn]
          exact hq0
        · intro he
          rw [he] at hq0
          exact hg1 hq0
    have hnp0 : ((removeResult w n pn nn).nodes n).prev = none := by
      rw [removeResult_node_x]
    have hnn0 : ((removeResult w n pn nn).nodes n).next = none := by
      rw [removeResult_node_x]
    have hnc0 : ((removeResult w n pn nn).nodes n).hostToChild = [] := by
      rw [removeResult_node_x]
    have hnpar0 : ((removeResult w n pn nn).nodes n).hostToParent = [] := by
      rw [removeResult_node_x]
    simp only [heq]
    have h1 : ((upd (removeResult w n pn nn) n
        (fun a => { a with next := some t })).nodes t).prev = some q := by
      rw [upd_nodes_ne _ n _ t htn]
      exact hQ
    rw [h1]
    have h2 : ((upd (upd (upd (removeResult w n pn nn) n (fun a => { a with next := some t }))
        n (fun a => { a with prev := some q })) t
        (fun a => { a with prev := some n })).nodes n).prev = some q := by
      rw [upd_nodes_ne _ t _ n (fun he => htn he.symm), upd_nodes_same]
    rw [h2]
    exact linkPrev_inv _ _ t n q _ hw0 ht htn hqn2 hnp0 hnn0 hnc0 hnpar0 hQ rfl
      (insertPrevChain_nodes _ t n q _ htn hqn2)
  · obtain ⟨hnc0, hnpar0⟩ := hdet hpv
    have hqn2 : q0 ≠ n := by
      intro he
      rw [he] at hq0
      exact hg1 hq0
    simp only [heq]
    have h1 : ((upd w n (fun a => { a with next := some t })).nodes t).prev = some q0 := by
      rw [upd_nodes_ne _ n _ t htn]
      exact hq0
    rw [h1]
    have h2 : ((upd (upd (upd w n (fun a => { a with next := some t }))
        n (fun a => { a with prev := some q0 })) t
        (fun a => { a with prev := some n })).nodes n).prev = some q0 := by
      rw [upd_nodes_ne _ t _ n (fun he => htn he.symm), upd_nodes_same]
    rw [h2]
    exact linkPrev_inv _ _ t n q0 _ hw ht htn hqn2 hpv hnv hnc0 hnpar0 hq0 rfl
      (insertPrevChain_nodes _ t n q0 _ htn hqn2)

theorem fold_clearChild_preserves (es : List (Option String × Nat)) (w : World) (s : Nat)
    (hw : NodeInv w) (hs : s ∈ w.ids) (hmem : ∀ q ∈ es, q.2 ∈ w.ids) :
    NodeInv (es.foldl (clearChildStep s) w)
    ∧ (es.foldl (clearChildStep s) w).ids = w.ids := by
  induction es generalizing w with
  | nil => exact ⟨hw, rfl⟩
  | cons q rest ih =>
      rw [List.foldl_cons]
      have hstep : clearChildStep s w q = removeChildOp w s q.2 := rfl
      rw [hstep]
      have hqid : q.2 ∈ w.ids := hmem q (List.mem_cons_self q rest)
      have hw2 := removeChildOp_preserves w s q.2 hw hs hqid
      have hs2 : s ∈ (removeChildOp w s q.2).ids := by
        rw [removeChildOp_ids]
        exact hs
      have hmem2 : ∀ r ∈ rest, r.2 ∈ (removeChildOp w s q.2).ids := by
        intro r hr
        rw [removeChildOp_ids]
        exact hmem r (List.mem_cons_of_mem q hr)
      obtain ⟨h1, h2⟩ := ih (removeChildOp w s q.2) hw2 hs2 hmem2
      exact ⟨h1, h2.trans (removeChildOp_ids w s q.2)⟩

theorem fold_clearParent_preserves (es : List (Option String × Nat)) (w : World) (s : Nat)
    (hw : NodeInv w) (hs : s ∈ w.ids) (hmem : ∀ q ∈ es, q.2 ∈ w.ids) :
    NodeInv (es.foldl (clearParentStep s) w)
    ∧ (es.foldl (clearParentStep s) w).ids = w.ids := by
  induction es generalizing w with
  | nil => exact ⟨hw, rfl⟩
  | cons q rest ih =>
      rw [List.foldl_cons]
      have hstep : clearParentStep s w q = removeParentOp w s q.2 := rfl
      rw [hstep]
      have hqid : q.2 ∈ w.ids := hmem q (List.mem_cons_self q rest)
      have hw2 := removeParentOp_preserves w s q.2 hw hs hqid
      have hs2 : s ∈ (removeParentOp w s q.2).ids := by
        rw [removeParentOp_ids]
        exact hs
      have hmem2 : ∀ r ∈ rest, r.2 ∈ (removeParentOp w s q.2).ids := by
        intro r hr
        rw [removeParentOp_ids]
        exact hmem r (List.mem_cons_of_mem q hr)
      obtain ⟨h1, h2⟩ := ih (removeParentOp w s q.2) hw2 hs2 hmem2
      exact ⟨h1, h2.trans (removeParentOp_ids w s q.2)⟩

theorem clearChildrenOp_preserves (w : World) (s : Nat) (hw : NodeInv w) (hs : s ∈ w.ids) :
    NodeInv (clearChildrenOp w s) ∧ (clearChildrenOp w s).ids = w.ids := by
  unfold clearChildrenOp
  exact fold_clearChild_preserves ((w.nodes s).hostToChild) w s hw hs
    (fun q hq => ((hw s hs).2.1 q hq).1)

theorem clearParentsOp_preserves (w : World) (s : Nat) (hw : NodeInv w) (hs : s ∈ w.ids) :
    NodeInv (clearParentsOp w s) ∧ (clearParentsOp w s).ids = w.ids := by
  unfold clearParentsOp
  exact fold_clearParent_preserves ((w.nodes s).hostToParent) w s hw hs
    (fun q hq => ((hw s hs).2.2.1 q hq).1)

theorem clearFamilyOp_preserves (w : World) (s : Nat) (hw : NodeInv w) (hs : s ∈ w.ids) :
    NodeInv (clearFamilyOp w s) := by
  unfold clearFamilyOp
  obtain ⟨h1, h2⟩ := clearChildrenOp_preserves w s hw hs
  have hs2 : s ∈ (clearChildrenOp w s).ids := by
    rw [h2]
    exact hs
  exact (clearParentsOp_preserves (clearChildrenOp w s) s h1 hs2).1

theorem removeFamilyOp_preserves (w : World) (s n : Nat) (hw : NodeInv w)
    (hs : s ∈ w.ids) (hn : n ∈ w.ids) : NodeInv (removeFamilyOp w s n) := by
  unfold removeFamilyOp
  have hw2 := removeChildOp_preserves w s n hw hs hn
  have hs2 : s ∈ (removeChildOp w s n).ids := by
    rw [removeChildOp_ids]
    exact hs
  have hn2 : n ∈ (removeChildOp w s n).ids := by
    rw [removeChildOp_ids]
    exact hn
  exact removeParentOp_preserves (removeChildOp w s n) s n hw2 hs2 hn2

/-- The per-operation proviso under which the invariants are preserved: every
node named by the operation is a known node; addChild and addParent are not
applied to a sentinel receiver (the code guards only the argument); inserts
have distinct endpoints, an anchored target (its link in the insertion
direction exists, otherwise the code crashes mid-mutation on a null
dereference) and a node that, when detached, carries no leftover family
(a detached node with family would be re-hosted without updating the keys
under which its relatives hold it). -/
def OpOK (w : World) : Op → Prop
  | Op.insertNext t n => t ∈ w.ids ∧ n ∈ w.ids ∧ t ≠ n ∧
      ((w.nodes t).next).isSome = true ∧
      ((w.nodes n).prev = none →
        (w.nodes n).hostToChild = [] ∧ (w.nodes n).hostToParent = [])
  | Op.insertPrev t n => t ∈ w.ids ∧ n ∈ w.ids ∧ t ≠ n ∧
      ((w.nodes t).prev).isSome = true ∧
      ((w.nodes n).prev = none →
        (w.nodes n).hostToChild = [] ∧ (w.nodes n).hostToParent = [])
  | Op.remove x => x ∈ w.ids
  | Op.addChild s n => s ∈ w.ids ∧ n ∈ w.ids ∧
      ((w.nodes s).isHead || (w.nodes s).isTail) = false
  | Op.addParent s n => s ∈ w.ids ∧ n ∈ w.ids ∧
      ((w.nodes s).isHead || (w.nodes s).isTail) = false
  | Op.removeChild s n => s ∈ w.ids ∧ n ∈ w.ids
  | Op.removeParent s n => s ∈ w.ids ∧ n ∈ w.ids
  | Op.removeFamily s n => s ∈ w.ids ∧ n ∈ w.ids
  | Op.clearChildren s => s ∈ w.ids
  | Op.clearParents s => s ∈ w.ids
  | Op.clearFamily s => s ∈ w.ids

/-- The proviso holds at every step of a sequence, each operation judged in
the world left by its predecessors. -/
def OpOKSeq : World → List Op → Prop
  | _, [] => True
  | w, op :: rest => OpOK w op ∧ OpOKSeq (applyOp w op) rest

instance instDecOpOK (w : World) (op : Op) : Decidable (OpOK w op) := by
  cases op <;> (rw [OpOK]; exact inferInstance)

def decOpOKSeq : (ops : List Op) → (w : World) → Decidable (OpOKSeq w ops)
  | [], _ => .isTrue trivial
  | op :: rest, w =>
      haveI := decOpOKSeq rest (applyOp w op)
      inferInstanceAs (Decidable (OpOK w op ∧ OpOKSeq (applyOp w op) rest))

instance instDecOpOKSeq (w : World) (ops : List Op) : Decidable (OpOKSeq w ops) :=
  decOpOKSeq ops w

instance instDecNodeInv (w : World) : Decidable (NodeInv w) := by
  unfold NodeInv NextOK ChildEntriesOK ParentEntriesOK KeysOK SentinelOK LinkedOK
  exact inferInstance

theorem applyOp_preserves (w : World) (op : Op) (hw : NodeInv w) (hok : OpOK w op) :
    NodeInv (applyOp w op) := by
  cases op with
  | insertNext t n =>
      obtain ⟨ht, hn, htn, hnext, hdet⟩ := hok
      exact insertNextOp_preserves w t n hw ht hn htn hnext hdet
  | insertPrev t n =>
      obtain ⟨ht, hn, htn, hprev, hdet⟩ := hok
      exact insertPrevOp_preserves w t n hw ht hn htn hprev hdet
  | remove x =>
      exact remove_applyOp_inv w x hw hok
  | addChild s n =>
      obtain ⟨hs, hn, hflag⟩ := hok
      exact addChildOp_preserves w s n hw hs hn hflag
  | addParent s n =>
      obtain ⟨hs, hn, hflag⟩ := hok
      exact addParentOp_preserves w s n hw hs hn hflag
  | removeChild s n =>
      obtain ⟨hs, hn⟩ := hok
      exact removeChildOp_preserves w s n hw hs hn
  | removeParent s n =>
      obtain ⟨hs, hn⟩ := hok
      exact removeParentOp_preserves w s n hw hs hn
  | removeFamily s n =>
      obtain ⟨hs, hn⟩ := hok
      exact removeFamilyOp_preserves w s n hw hs hn
  | clearChildren s =>
      exact (clearChildrenOp_preserves w s hw hok).1
  | clearParents s =>
      exact (clearParentsOp_preserves w s hw hok).1
  | clearFamily s =>
      exact clearFamilyOp_preserves w s hw hok

theorem applyOps_preserves (ops : List Op) (w : World) (hw : NodeInv w)
    (hok : OpOKSeq w ops) : NodeInv (applyOps w ops) := by
  induction ops generalizing w with
  | nil => exact hw
  | cons op rest ih =>
      obtain ⟨h1, h2⟩ := hok
      exact ih (applyOp w op) (applyOp_preserves w op hw h1) h2

/-- A small linked heap used to exercise the operation sequence: a head and a
tail sentinel of host A around one linked node of host A, plus one detached
family-free node of host B. -/
def wx : World :=
  ⟨[0, 1, 2, 3], fun i =>
    if i = 0 then ⟨none, some 2, [], [], some "A", true, false⟩
    else if i = 1 then ⟨some 2, none, [], [], some "A", false, true⟩
    else if i = 2 then ⟨some 0, some 1, [], [], some "A", false, false⟩
    else if i = 3 then ⟨none, none, [], [], some "B", false, false⟩
    else ANode.blank⟩

/-- A sequence exercising every operation class named by the claim. -/
def wxOps : List Op :=
  [Op.insertNext 2 3, Op.remove 3, Op.addChild 2 3, Op.removeChild 2 3,
   Op.addParent 2 3, Op.removeFamily 2 3, Op.addChild 2 3, Op.clearChildren 2,
   Op.addParent 2 3, Op.clearParents 2, Op.addChild 2 3, Op.clearFamily 2,
   Op.insertPrev 2 3, Op.remove 2]

/-- Claim C9 (amended): a sequence of AbstractNode operations preserves the
structural invariants — mutual next/prev consistency, mutual child/parent
consistency with matching host keys and no same-host family, per-host
uniqueness of children and of parents, sentinels without family, and
non-sentinels fully linked or fully detached — provided each operation names
known nodes, addChild and addParent are not invoked on a sentinel receiver
(the code only guards the argument), and each insert has distinct endpoints,
a target whose link in the insertion direction exists, and an inserted node
that is not detached with leftover family. -/
theorem abstractNode_invariants (w : World) (ops : List Op) (hw : NodeInv w)
    (hok : OpOKSeq w ops) : NodeInv (applyOps w ops) :=
  applyOps_preserves ops w hw hok

/-- Witness for C9: on the concrete heap the provisos hold for the fourteen
operation sequence and the invariants hold after running it. -/
theorem abstractNode_invariants_witness :
    NodeInv wx ∧ OpOKSeq wx wxOps ∧ NodeInv (applyOps wx wxOps) :=
  ⟨by decide, by decide, abstractNode_invariants wx wxOps (by decide) (by decide)⟩

/-- A well-formed heap with a head sentinel of host A linked to a tail
sentinel, plus one detached family-free node of host B. -/
def cexWorld : World :=
  ⟨[0, 1, 2], fun i =>
    if i = 0 then ⟨none, some 1, [], [], some "A", true, false⟩
    else if i = 1 then ⟨some 0, none, [], [], some "A", false, true⟩
    else if i = 2 then ⟨none, none, [], [], some "B", false, false⟩
    else ANode.blank⟩

/-- Counterexample to C9 as stated: the invariants hold on the heap, yet a
single addChild whose receiver is the head sentinel (the code checks only the
argument for being a sentinel) hands the sentinel a child entry, so the
sentinels-have-no-family invariant is not preserved by every operation
sequence. -/
theorem addChild_sentinel_receiver :
    NodeInv cexWorld
  ∧ (cexWorld.nodes 0).isHead = true
  ∧ ((applyOp cexWorld (Op.addChild 0 2)).nodes 0).hostToChild = [(some "B", 2)]
  ∧ ¬ NodeInv (applyOp cexWorld (Op.addChild 0 2)) := by
  exact ⟨by decide, rfl, by decide, by decide⟩
